/-
Verification of the extractive summarizer in `render_app.py`
(`split_sentences`, `tokenize_words`, `clean_summary`, `summarize_text`).

Modelling conventions:
* Python strings are `List Char`; all inputs of interest are ASCII, so the
  ASCII whitespace set stands in for Python's str.strip / \s behaviour and
  `Char.toLower` for str.lower.
* The sentence score `sum(freqs) / len(tokens) ** 0.8` (render_app.py:163)
  is a nonnegative real; we track the exact rational `sum^5 / len^4`, its
  image under the strictly monotone map x ↦ x^5 (0.8 = 4/5, so
  score^5 = sum^5 / len^4).  Two scores compare (and tie) exactly as their
  keys do, so ranking and stable-sort ties are preserved; float rounding of
  CPython is idealised to exact arithmetic.
* Python's `sorted` is a stable sort; it is modelled by a stable insertion
  sort (`sortDesc`, `sortAscIdx`).
* The `try/except` boundary of `summarize_text` (render_app.py:137,180-182)
  is modelled by `Option`: the one partial primitive reachable in the body,
  `max()` on an empty sequence (render_app.py:152), returns `none`, and
  `summarize_text` maps a propagated `none` to the empty string.
* Regex scanners are written as single-pass structural recursions so that
  every definition evaluates inside the kernel.
-/
import Mathlib

set_option linter.unusedVariables false

open List (Sublist Perm)

open scoped List

/-! ## Character classes and Python string primitives -/

/-- ASCII whitespace, the characters Python's `str.strip`, `str.split` and
the regex `\s` recognise on ASCII text. -/
def pySpace (c : Char) : Bool :=
  c = ' ' || c = '\t' || c = '\n' || c = '\r' || c = '\x0b' || c = '\x0c'

/-- Terminal punctuation of the splitter regex `(?<=[\.\!\?])\s+`
(render_app.py:118). -/
def isTerm (c : Char) : Bool := c = '.' || c = '!' || c = '?'

/-- A character of the token class `[a-zA-Z']` (render_app.py:123), applied
after lowercasing. -/
def isWordChar (c : Char) : Bool :=
  ('a' ≤ c && c ≤ 'z') || ('A' ≤ c && c ≤ 'Z') || c = '\''

/-- Python `str.lower` on ASCII text. -/
def pyLower (l : List Char) : List Char := l.map Char.toLower

/-- Drop trailing Python whitespace. -/
def dropTrail (l : List Char) : List Char := (l.reverse.dropWhile pySpace).reverse

/-- Python `str.strip()`. -/
def pyStrip (l : List Char) : List Char := dropTrail (l.dropWhile pySpace)

/-- Accumulator pass of `str.split()`: `cur` is the reversed current word. -/
def pyWordsAux (cur : List Char) : List Char → List (List Char)
  | [] => if cur.isEmpty then [] else [cur.reverse]
  | c :: cs =>
    if pySpace c then
      if cur.isEmpty then pyWordsAux [] cs else cur.reverse :: pyWordsAux [] cs
    else pyWordsAux (c :: cur) cs

/-- Python `str.split()` with no argument: maximal nonempty chunks between
whitespace runs. -/
def pyWords (l : List Char) : List (List Char) := pyWordsAux [] l

/-- Python `" ".join(l)`. -/
def joinSpace : List (List Char) → List Char
  | [] => []
  | [s] => s
  | s :: t :: rest => s ++ ' ' :: joinSpace (t :: rest)

/-- One pass of `re.sub(r"\s+", " ", _)`: `prevSpace` records whether the
previous input character was whitespace (i.e. we are inside a run that has
already emitted its single replacement space). -/
def collapseAux (prevSpace : Bool) : List Char → List Char
  | [] => []
  | c :: cs =>
    if pySpace c then
      if prevSpace then collapseAux true cs else ' ' :: collapseAux true cs
    else c :: collapseAux false cs

/-- Python `re.sub(r"\s+", " ", l)` (render_app.py:178): every maximal
whitespace run becomes a single space. -/
def collapseWs (l : List Char) : List Char := collapseAux false l

/-! ## Sentence segmentation (render_app.py:115-120) -/

/-- Head of the reversed accumulator is terminal punctuation (the previous
character of the scan). -/
def headTerm : List Char → Bool
  | [] => false
  | p :: _ => isTerm p

/-- Scanner for `re.split(r'(?<=[\.\!\?])\s+', text)`.  `mode = true` means
we are inside a separator whitespace run (one that began right after
terminal punctuation); `cur` is the reversed accumulator of the current
part.  A part ends exactly when whitespace follows terminal punctuation,
and the whole whitespace run is the separator. -/
def sentScan (mode : Bool) (cur : List Char) : List Char → List (List Char)
  | [] => if mode then [[]] else [cur.reverse]
  | c :: cs =>
    if mode then
      if pySpace c then sentScan true [] cs
      else sentScan false [c] cs
    else
      if pySpace c && headTerm cur then cur.reverse :: sentScan true [] cs
      else sentScan false (c :: cur) cs

/-- render_app.py:115-120 `split_sentences`: regex split, strip each part,
keep the parts with at least 5 whitespace-delimited words. -/
def split_sentences (text : List Char) : List (List Char) :=
  ((sentScan false [] text).map pyStrip).filter (fun s => 5 ≤ (pyWords s).length)

/-! ## Tokenizer (render_app.py:122-123) -/

/-- Accumulator pass collecting maximal `isWordChar` runs (reversed
accumulator `cur`). -/
def tokenRunsAux (cur : List Char) : List Char → List (List Char)
  | [] => if cur.isEmpty then [] else [cur.reverse]
  | c :: cs =>
    if isWordChar c then tokenRunsAux (c :: cur) cs
    else if cur.isEmpty then tokenRunsAux [] cs
    else cur.reverse :: tokenRunsAux [] cs

/-- Maximal runs of `isWordChar` characters, in order. -/
def tokenRuns (l : List Char) : List (List Char) := tokenRunsAux [] l

/-- render_app.py:122-123 `tokenize_words`:
`re.findall(r"[a-zA-Z']{2,}", text.lower())` — after lowercasing, the
maximal word-character runs of length at least 2 (a greedy match consumes a
whole maximal run; runs of length 1 produce no match). -/
def tokenize_words (text : List Char) : List (List Char) :=
  (tokenRuns (pyLower text)).filter (fun r => 2 ≤ r.length)

/-! ## Fixed tables (render_app.py:105-113, 131) -/

/-- render_app.py:105-113 STOPWORDS, transcribed in source order. -/
def STOPWORDS : List (List Char) :=
  (["a", "about", "above", "after", "again", "against", "all", "am", "an",
    "and", "any", "are", "as", "at", "be", "because", "been", "before",
    "being", "below", "between", "both", "but", "by", "could", "did", "do",
    "does", "doing", "down", "during", "each", "few", "for", "from",
    "further", "had", "has", "have", "having", "he", "her", "here", "hers",
    "herself", "him", "himself", "his", "how", "i", "if", "in", "into",
    "is", "it", "its", "itself", "just", "me", "more", "most", "my",
    "myself", "no", "nor", "not", "of", "off", "on", "once", "only", "or",
    "other", "ought", "our", "ours", "ourselves", "out", "over", "own",
    "same", "she", "should", "so", "some", "such", "than", "that", "the",
    "their", "theirs", "them", "themselves", "then", "there", "these",
    "they", "this", "those", "through", "to", "too", "under", "until",
    "up", "very", "was", "we", "were", "what", "when", "where", "which",
    "while", "who", "whom", "why", "with", "would", "you", "your", "yours",
    "yourself", "yourselves"] : List String).map String.toList

/-- The alternatives of the boilerplate regex of render_app.py:131. -/
def BOILERPLATE : List (List Char) :=
  (["Staff Writer", "Editorial", "Content Lead", "Reporter", "Journalist",
    "Subscribe", "Sign up"] : List String).map String.toList

/-! ## Substring search (models `re.search` on literal alternatives) -/

/-- `pat` matches at the very start of `l`. -/
def isSubAt : List Char → List Char → Bool
  | [], _ => true
  | _ :: _, [] => false
  | p :: ps, c :: cs => p = c && isSubAt ps cs

/-- `pat` occurs somewhere in `l` (substring search). -/
def containsSub (pat : List Char) : List Char → Bool
  | [] => isSubAt pat []
  | c :: cs => isSubAt pat (c :: cs) || containsSub pat cs

/-- render_app.py:131 — the case-insensitive boilerplate test of
`clean_summary`: some alternative of the regex occurs in the sentence. -/
def isBoiler (s : List Char) : Bool :=
  BOILERPLATE.any (fun m => containsSub (pyLower m) (pyLower s))

/-- render_app.py:125-134 `clean_summary`: re-segment the summary, drop
sentences matching the boilerplate regex, join the rest with spaces. -/
def clean_summary (summary : List Char) : List Char :=
  joinSpace ((split_sentences summary).filter (fun s => !isBoiler s))

/-! ## Frequencies and scores (render_app.py:145-164) -/

/-- Python `enumerate`, from a given start index. -/
def pyEnum (n : ℕ) : List α → List (ℕ × α)
  | [] => []
  | a :: l => (n, a) :: pyEnum (n + 1) l

/-- Python `max()` over a list of naturals: raises (`none`) on the empty
list, else the maximum. -/
def pyMaxNat : List ℕ → Option ℕ
  | [] => none
  | x :: xs => some (xs.foldl max x)

/-- The maximum raw frequency `max(freqs.values())` (render_app.py:152);
`Counter` values are the per-token counts, so the maximum over distinct
tokens equals the maximum of `ws.count w` over occurrences `w ∈ ws`. -/
def maxFreq (ws : List (List Char)) : ℕ :=
  (pyMaxNat (ws.map (fun w => ws.count w))).getD 0

/-- The normalized frequency table entry `freqs.get(t, 0.0)`
(render_app.py:151-155,163): count of `t` among the kept words divided by
the maximum count.  A token absent from the table has count 0, so the
`.get` default 0.0 is subsumed. -/
def nfreq (ws : List (List Char)) (mf : ℕ) (t : List Char) : ℚ :=
  (ws.count t : ℚ) / (mf : ℚ)

/-- The exact comparison key of the sentence score
`sum(freqs.get(t, 0.0) for t in tokens) / (len(tokens) ** 0.8)`
(render_app.py:163): the score raised to the 5th power,
`(sum)^5 / len^4`, since 0.8 = 4/5.  x ↦ x^5 is strictly monotone on the
nonnegative reals, so two scores compare (and tie) exactly as their keys
do. -/
def scoreKey (ws : List (List Char)) (mf : ℕ) (tokens : List (List Char)) : ℚ :=
  ((tokens.map (nfreq ws mf)).sum) ^ 5 / ((tokens.length : ℚ)) ^ 4

/-- One entry of `sent_scores` (render_app.py:158-164):
(original index, score key, sentence text). -/
def tripleOf (ws : List (List Char)) (mf : ℕ) (p : ℕ × List Char) :
    ℕ × ℚ × List Char :=
  (p.1, scoreKey ws mf (tokenize_words p.2), p.2)

/-- render_app.py:158-164: the loop appending `(idx, score, s)` for every
enumerated sentence with a nonempty token list. -/
def scoredSentences (ws : List (List Char)) (mf : ℕ)
    (sents : List (List Char)) : List (ℕ × ℚ × List Char) :=
  ((pyEnum 0 sents).filter (fun p => !(tokenize_words p.2).isEmpty)).map
    (tripleOf ws mf)

/-! ## Stable sorts (render_app.py:167-168)

Python's `sorted` is stable.  `sorted(sent_scores, key=lambda x: x[1],
reverse=True)` keeps an element before any later element whose key is not
strictly larger; `sorted(top, key=lambda x: x[0])` keeps an element before
any later element whose key is not strictly smaller.  Stable insertion
sorts produce exactly those lists. -/

/-- Insert into a descending-by-key list, after all entries whose key is
at least as large (stability for `reverse=True`). -/
def insertDesc (x : ℕ × ℚ × List Char) :
    List (ℕ × ℚ × List Char) → List (ℕ × ℚ × List Char)
  | [] => [x]
  | y :: ys => if y.2.1 < x.2.1 then x :: y :: ys else y :: insertDesc x ys

/-- Stable sort descending by score key, `sorted(_, key=x[1], reverse=True)`
(render_app.py:167). -/
def sortDesc (l : List (ℕ × ℚ × List Char)) : List (ℕ × ℚ × List Char) :=
  l.foldl (fun acc x => insertDesc x acc) []

/-- Insert into an ascending-by-index list, after all entries whose index
is not larger (stability). -/
def insertAscIdx (x : ℕ × ℚ × List Char) :
    List (ℕ × ℚ × List Char) → List (ℕ × ℚ × List Char)
  | [] => [x]
  | y :: ys => if x.1 < y.1 then x :: y :: ys else y :: insertAscIdx x ys

/-- Stable sort ascending by original index, `sorted(top, key=x[0])`
(render_app.py:168). -/
def sortAscIdx (l : List (ℕ × ℚ × List Char)) : List (ℕ × ℚ × List Char) :=
  l.foldl (fun acc x => insertAscIdx x acc) []

/-! ## The summarizer (render_app.py:136-182) -/

/-- render_app.py:142-143: the first 80 segmented sentences. -/
def cappedSentences (text : List Char) : List (List Char) :=
  (split_sentences text).take 80

/-- render_app.py:146-147: tokens of the joined capped sentences with
stopwords removed. -/
def keptWordsOf (text : List Char) : List (List Char) :=
  (tokenize_words (joinSpace (cappedSentences text))).filter
    (fun w => !STOPWORDS.contains w)

/-- render_app.py:137-179, the body of `summarize_text` inside the `try`.
`none` models an exception propagating to the `except` handler; the only
partial primitive reachable is `max()` on an empty sequence
(render_app.py:152). -/
def summarizeCore (text : List Char) (max_sentences : ℕ) : Option (List Char) :=
  if (split_sentences text).isEmpty then some []
  else
    let sentences := cappedSentences text
    let words := keptWordsOf text
    if words.isEmpty then some (joinSpace (sentences.take max_sentences))
    else
      match pyMaxNat (words.map (fun w => words.count w)) with
      | none => none
      | some mf =>
        let top := (sortDesc (scoredSentences words mf sentences)).take max_sentences
        let top_sorted := (sortAscIdx top).map (fun x => x.2.2)
        let summary := pyStrip (clean_summary (joinSpace top_sorted))
        let summary2 :=
          if summary.isEmpty then joinSpace (sentences.take max_sentences)
          else summary
        some (pyStrip (collapseWs summary2))

/-- render_app.py:136-182 `summarize_text`: the core, with a propagated
exception converted to the empty string by the `except` handler. -/
def summarize_text (text : List Char) (max_sentences : ℕ) : List Char :=
  (summarizeCore text max_sentences).getD []

/-! ## Generic helper lemmas -/

theorem term_not_space {c : Char} (h : isTerm c = true) : pySpace c = false := by
  simp only [isTerm, Bool.or_eq_true, decide_eq_true_eq] at h
  rcases h with (h | h) | h <;> subst h <;> decide

theorem dropWhile_head_not {p : Char → Bool} {l : List Char} {c : Char}
    (h : (l.dropWhile p).head? = some c) : p c = false := by
  induction l with
  | nil => simp [List.dropWhile] at h
  | cons a l ih =>
    rw [List.dropWhile_cons] at h
    cases hpa : p a with
    | true => simp only [hpa, if_true] at h; exact ih h
    | false =>
      simp [hpa] at h
      subst h; exact hpa

theorem dropWhile_eq_self_of_head {p : Char → Bool} {l : List Char}
    (h : ∀ c, l.head? = some c → p c = false) : l.dropWhile p = l := by
  cases l with
  | nil => rfl
  | cons a l => rw [List.dropWhile_cons]; simp [h a rfl]

theorem dropTrail_eq_self_of_getLast {l : List Char}
    (h : ∀ c, l.getLast? = some c → pySpace c = false) : dropTrail l = l := by
  unfold dropTrail
  rw [dropWhile_eq_self_of_head, List.reverse_reverse]
  intro c hc
  exact h c (by rwa [← List.getLast?_reverse, List.reverse_reverse] at hc)

theorem dropTrail_append (l : List Char) :
    l = dropTrail l ++ (l.reverse.takeWhile pySpace).reverse := by
  unfold dropTrail
  rw [← List.reverse_append, List.takeWhile_append_dropWhile, List.reverse_reverse]

theorem dropWhile_append_self (p : Char → Bool) (l : List Char) :
    l = l.takeWhile p ++ l.dropWhile p := (List.takeWhile_append_dropWhile p l).symm

theorem dropTrail_getLast_not {l : List Char} {c : Char}
    (h : (dropTrail l).getLast? = some c) : pySpace c = false := by
  unfold dropTrail at h
  rw [List.getLast?_reverse] at h
  exact dropWhile_head_not h

/-! ## Adjacent-pair invariants (`chainB`) -/

/-- `R` holds of every adjacent pair of characters. -/
def chainB (R : Char → Char → Bool) : List Char → Bool
  | [] => true
  | [_] => true
  | a :: b :: l => R a b && chainB R (b :: l)

theorem chainB_tail {R : Char → Char → Bool} {a : Char} {l : List Char}
    (h : chainB R (a :: l) = true) : chainB R l = true := by
  cases l with
  | nil => rfl
  | cons b l => exact (Bool.and_eq_true_iff.mp h).2

theorem chainB_cons_iff {R : Char → Char → Bool} {a : Char} {l : List Char} :
    chainB R (a :: l) = true ↔
      (∀ b, l.head? = some b → R a b = true) ∧ chainB R l = true := by
  cases l with
  | nil => simp [chainB]
  | cons b l =>
    rw [show chainB R (a :: b :: l) = (R a b && chainB R (b :: l)) from rfl,
      Bool.and_eq_true_iff]
    constructor
    · rintro ⟨h1, h2⟩
      exact ⟨fun c hc => by simp at hc; subst hc; exact h1, h2⟩
    · rintro ⟨h1, h2⟩
      exact ⟨h1 b rfl, h2⟩

theorem chainB_append_snoc {R : Char → Char → Bool} {l : List Char} {c : Char}
    (h : chainB R l = true)
    (hl : ∀ p, l.getLast? = some p → R p c = true) :
    chainB R (l ++ [c]) = true := by
  induction l with
  | nil => rfl
  | cons a l ih =>
    rw [List.cons_append, chainB_cons_iff]
    rw [chainB_cons_iff] at h
    refine ⟨?_, ih h.2 ?_⟩
    · intro b hb
      cases l with
      | nil =>
        simp at hb
        subst hb
        exact hl a rfl
      | cons x xs => simp at hb; subst hb; exact h.1 x rfl
    · intro p hp
      apply hl
      cases l with
      | nil => simp at hp
      | cons x xs => rw [List.getLast?_cons_cons]; exact hp

theorem chainB_append_left {R : Char → Char → Bool} {l₁ l₂ : List Char}
    (h : chainB R (l₁ ++ l₂) = true) : chainB R l₁ = true := by
  induction l₁ with
  | nil => rfl
  | cons a l ih =>
    rw [List.cons_append, chainB_cons_iff] at h
    rw [chainB_cons_iff]
    refine ⟨?_, ih h.2⟩
    intro b hb
    apply h.1
    cases l with
    | nil => simp at hb
    | cons x xs => simp at hb ⊢; exact hb

theorem chainB_append_right {R : Char → Char → Bool} {l₁ l₂ : List Char}
    (h : chainB R (l₁ ++ l₂) = true) : chainB R l₂ = true := by
  induction l₁ with
  | nil => exact h
  | cons a l ih =>
    rw [List.cons_append] at h
    exact ih (chainB_tail h)

theorem chainB_dropWhile {R : Char → Char → Bool} {p : Char → Bool}
    {l : List Char} (h : chainB R l = true) :
    chainB R (l.dropWhile p) = true := by
  have := dropWhile_append_self p l
  exact chainB_append_right (this ▸ h)

theorem chainB_dropTrail {R : Char → Char → Bool} {l : List Char}
    (h : chainB R l = true) : chainB R (dropTrail l) = true := by
  have := dropTrail_append l
  exact chainB_append_left (this ▸ h)

theorem chainB_pyStrip {R : Char → Char → Bool} {l : List Char}
    (h : chainB R l = true) : chainB R (pyStrip l) = true :=
  chainB_dropTrail (chainB_dropWhile h)

/-- No terminal-punctuation character immediately followed by whitespace:
such a pair is exactly a split point of `split_sentences`, so segmented
sentences satisfy it. -/
def noTermSpace (l : List Char) : Bool :=
  chainB (fun a b => !(isTerm a && pySpace b)) l

/-- No two adjacent whitespace characters. -/
def noDoubleWs (l : List Char) : Bool :=
  chainB (fun a b => !(pySpace a && pySpace b)) l

/-! ## Stripped strings: edges and idempotence -/

theorem head?_append_left {l₁ l₂ : List Char} (h : l₁ ≠ []) :
    (l₁ ++ l₂).head? = l₁.head? := by
  cases l₁ with
  | nil => exact absurd rfl h
  | cons a l => rfl

theorem getLast?_append_right {l₁ l₂ : List Char} (h : l₂ ≠ []) :
    (l₁ ++ l₂).getLast? = l₂.getLast? := by
  rw [← List.head?_reverse, ← List.head?_reverse (l := l₂), List.reverse_append]
  exact head?_append_left (by simpa using h)

theorem stripped_dropWhile {l : List Char} (h : pyStrip l = l) :
    l.dropWhile pySpace = l := by
  have hlen1 : (dropTrail (l.dropWhile pySpace)).length ≤ (l.dropWhile pySpace).length := by
    conv_rhs => rw [dropTrail_append (l.dropWhile pySpace)]
    rw [List.length_append]; omega
  have hlen2 : (l.dropWhile pySpace).length ≤ l.length := by
    conv_rhs => rw [dropWhile_append_self pySpace l]
    rw [List.length_append]; omega
  have hlen : (l.dropWhile pySpace).length = l.length := by
    have : (pyStrip l).length = l.length := by rw [h]
    unfold pyStrip at this; omega
  have htl : (l.takeWhile pySpace).length = 0 := by
    have := congrArg List.length (dropWhile_append_self pySpace l)
    rw [List.length_append] at this; omega
  have : l.takeWhile pySpace = [] := List.eq_nil_of_length_eq_zero htl
  conv_rhs => rw [dropWhile_append_self pySpace l, this, List.nil_append]

theorem stripped_dropTrail {l : List Char} (h : pyStrip l = l) :
    dropTrail l = l := by
  have hd := stripped_dropWhile h
  unfold pyStrip at h
  rwa [hd] at h

theorem stripped_head_not {l : List Char} {c : Char} (h : pyStrip l = l)
    (hc : l.head? = some c) : pySpace c = false := by
  have hd := stripped_dropWhile h
  exact dropWhile_head_not (hd.symm ▸ hc)

theorem stripped_getLast_not {l : List Char} {c : Char} (h : pyStrip l = l)
    (hc : l.getLast? = some c) : pySpace c = false := by
  have hd := stripped_dropTrail h
  exact dropTrail_getLast_not (hd.symm ▸ hc)

theorem stripped_of_edges {l : List Char}
    (h1 : ∀ c, l.head? = some c → pySpace c = false)
    (h2 : ∀ c, l.getLast? = some c → pySpace c = false) :
    pyStrip l = l := by
  unfold pyStrip
  rw [dropWhile_eq_self_of_head h1]
  exact dropTrail_eq_self_of_getLast h2

theorem pyStrip_head_not {l : List Char} {c : Char}
    (hc : (pyStrip l).head? = some c) : pySpace c = false := by
  unfold pyStrip at hc
  have hne : dropTrail (l.dropWhile pySpace) ≠ [] := by
    intro h0; rw [h0] at hc; simp at hc
  have := dropTrail_append (l.dropWhile pySpace)
  apply dropWhile_head_not (l := l)
  rw [this, head?_append_left hne]
  exact hc

theorem pyStrip_getLast_not {l : List Char} {c : Char}
    (hc : (pyStrip l).getLast? = some c) : pySpace c = false :=
  dropTrail_getLast_not hc

theorem pyStrip_idem (l : List Char) : pyStrip (pyStrip l) = pyStrip l :=
  stripped_of_edges (fun _ h => pyStrip_head_not h)
    (fun _ h => pyStrip_getLast_not h)

/-! ## Properties of the sentence scanner -/

theorem headTerm_eq {cur : List Char} {p : Char} (h : cur.head? = some p) :
    headTerm cur = isTerm p := by
  cases cur with
  | nil => simp at h
  | cons a l => simp at h; subst h; rfl

theorem chainB_middle_pair {R : Char → Char → Bool} :
    ∀ {l₁ : List Char} {b : Char} {l₂ : List Char} {a : Char},
    chainB R (l₁ ++ b :: l₂) = true → l₁.getLast? = some a → R a b = true := by
  intro l₁
  induction l₁ with
  | nil => intro b l₂ a h ha; simp at ha
  | cons x xs ih =>
    intro b l₂ a h ha
    cases xs with
    | nil =>
      simp at ha; subst ha
      exact ((chainB_cons_iff.mp h).1 b rfl)
    | cons y ys =>
      rw [List.getLast?_cons_cons] at ha
      exact ih (chainB_tail h) ha

theorem sentScan_ne_nil : ∀ (text : List Char) (mode : Bool) (cur : List Char),
    sentScan mode cur text ≠ [] := by
  intro text
  induction text with
  | nil =>
    intro mode cur
    cases mode <;> simp [sentScan]
  | cons c cs ih =>
    intro mode cur
    cases mode with
    | true =>
      by_cases h : pySpace c = true <;> simp [sentScan, h] <;> apply ih
    | false =>
      by_cases h : (pySpace c && headTerm cur) = true <;> simp [sentScan, h]
      apply ih

theorem sentScan_noTermSpace : ∀ (text : List Char) (mode : Bool) (cur : List Char),
    noTermSpace cur.reverse = true →
    ∀ s ∈ sentScan mode cur text, noTermSpace s = true := by
  intro text
  induction text with
  | nil =>
    intro mode cur hcur s hs
    cases mode with
    | true => simp [sentScan] at hs; subst hs; rfl
    | false => simp [sentScan] at hs; subst hs; exact hcur
  | cons c cs ih =>
    intro mode cur hcur s hs
    cases mode with
    | true =>
      by_cases h : pySpace c = true
      · simp only [sentScan, if_true, h] at hs
        exact ih true [] rfl s hs
      · simp only [sentScan, if_true, Bool.not_eq_true] at hs
        rw [if_neg h] at hs
        exact ih false [c] rfl s hs
    | false =>
      by_cases h : (pySpace c && headTerm cur) = true
      · simp only [sentScan, if_neg (Bool.false_ne_true), h, if_true] at hs
        rcases List.mem_cons.mp hs with h1 | h1
        · subst h1; exact hcur
        · exact ih true [] rfl s h1
      · simp only [sentScan, if_neg (Bool.false_ne_true)] at hs
        rw [if_neg h] at hs
        refine ih false (c :: cur) ?_ s hs
        show chainB _ ((c :: cur).reverse) = true
        rw [List.reverse_cons]
        apply chainB_append_snoc hcur
        intro p hp
        rw [List.getLast?_reverse] at hp
        have hht := headTerm_eq hp
        rw [Bool.not_eq_true']
        rw [Bool.and_comm, ← hht]
        exact Bool.of_not_eq_true h

/-! ## Sentence shapes: qualifying sentences and joinable lists -/

/-- The string ends with terminal punctuation. -/
def EndsTermP (s : List Char) : Prop :=
  ∃ c, s.getLast? = some c ∧ isTerm c = true

/-- All elements except possibly the last end with terminal punctuation
(the shape of the parts of the splitter: only the final part can lack its
terminator). -/
def AELT : List (List Char) → Prop
  | [] => True
  | [_] => True
  | s :: t :: r => EndsTermP s ∧ AELT (t :: r)

theorem AELT_tail {s : List Char} {l : List (List Char)} (h : AELT (s :: l)) :
    AELT l := by
  cases l with
  | nil => trivial
  | cons t r => exact h.2

theorem AELT_head {s : List Char} {l : List (List Char)} (h : AELT (s :: l))
    (hne : l ≠ []) : EndsTermP s := by
  cases l with
  | nil => exact absurd rfl hne
  | cons t r => exact h.1

theorem AELT_cons {s : List Char} {l : List (List Char)} (hs : EndsTermP s)
    (hl : AELT l) : AELT (s :: l) := by
  cases l with
  | nil => trivial
  | cons t r => exact ⟨hs, hl⟩

theorem AELT_sublist {l₁ l₂ : List (List Char)} (h : l₁ <+ l₂)
    (h₂ : AELT l₂) : AELT l₁ := by
  induction h with
  | slnil => trivial
  | cons a h ih => exact ih (AELT_tail h₂)
  | cons₂ a h ih =>
    rename_i k₁ k₂
    cases hk : k₁ with
    | nil => trivial
    | cons x xs =>
      subst hk
      have hk₂ : k₂ ≠ [] := by
        intro h0; subst h0; exact absurd (List.eq_nil_of_sublist_nil h) (by simp)
      exact AELT_cons (AELT_head h₂ hk₂) (ih (AELT_tail h₂))

theorem AELT_map {f : List Char → List Char} {l : List (List Char)}
    (hf : ∀ s, EndsTermP s → EndsTermP (f s)) (h : AELT l) :
    AELT (l.map f) := by
  induction l with
  | nil => trivial
  | cons s l ih =>
    cases l with
    | nil => trivial
    | cons t r => exact ⟨hf s h.1, ih h.2⟩

theorem sentScan_AELT : ∀ (text : List Char) (mode : Bool) (cur : List Char),
    AELT (sentScan mode cur text) := by
  intro text
  induction text with
  | nil =>
    intro mode cur
    cases mode <;> simp [sentScan] <;> trivial
  | cons c cs ih =>
    intro mode cur
    cases mode with
    | true =>
      by_cases h : pySpace c = true
      · simp only [sentScan, if_true, h]; exact ih true []
      · simp only [sentScan, if_true]; rw [if_neg h]; exact ih false [c]
    | false =>
      by_cases h : (pySpace c && headTerm cur) = true
      · simp only [sentScan, if_neg (Bool.false_ne_true), h, if_true]
        refine AELT_cons ?_ (ih true [])
        have hc : headTerm cur = true := (Bool.and_eq_true_iff.mp h).2
        cases cur with
        | nil => simp [headTerm] at hc
        | cons p cur' =>
          exact ⟨p, by rw [List.reverse_cons, getLast?_append_right (by simp)]; rfl, hc⟩
      · simp only [sentScan, if_neg (Bool.false_ne_true)]
        rw [if_neg h]
        exact ih false (c :: cur)

/-- Terminal ending survives `pyStrip`. -/
theorem EndsTermP_pyStrip {s : List Char} (h : EndsTermP s) :
    EndsTermP (pyStrip s) := by
  obtain ⟨c, hc, ht⟩ := h
  have hcs := term_not_space ht
  have hdw : (s.dropWhile pySpace).getLast? = some c := by
    by_cases hnil : s.dropWhile pySpace = []
    · exfalso
      have hs : s.takeWhile pySpace = s := by
        have := dropWhile_append_self pySpace s
        rw [hnil, List.append_nil] at this; exact this.symm
      have hmem : c ∈ s := List.mem_of_getLast?_eq_some hc
      rw [← hs] at hmem
      have := List.mem_takeWhile_imp hmem
      rw [hcs] at this; exact Bool.false_ne_true this
    · rw [dropWhile_append_self pySpace s, getLast?_append_right hnil] at hc
      exact hc
  refine ⟨c, ?_, ht⟩
  show (dropTrail (s.dropWhile pySpace)).getLast? = some c
  rw [dropTrail_eq_self_of_getLast]
  · exact hdw
  · intro c' hc'
    rw [hdw] at hc'
    injection hc' with h'
    subst h'; exact hcs

/-- A qualifying sentence of the segmentation: stripped, at least five
words, and with no internal split point. -/
def SentLike (s : List Char) : Prop :=
  pyStrip s = s ∧ noTermSpace s = true ∧ 5 ≤ (pyWords s).length

theorem SentLike.ne_nil {s : List Char} (h : SentLike s) : s ≠ [] := by
  intro h0
  subst h0
  have := h.2.2
  simp [pyWords, pyWordsAux] at this

/-- A list that `split_sentences` maps to itself when joined with single
spaces: every element qualifying, all but the last ending with terminal
punctuation. -/
def Joinable (l : List (List Char)) : Prop :=
  (∀ s ∈ l, SentLike s) ∧ AELT l

theorem Joinable_sublist {l₁ l₂ : List (List Char)} (h : l₁ <+ l₂)
    (h₂ : Joinable l₂) : Joinable l₁ :=
  ⟨fun s hs => h₂.1 s (h.mem hs), AELT_sublist h h₂.2⟩

/-! ## Round trip: re-splitting a join of qualifying sentences -/

/-- Without any internal split point the scanner yields a single part. -/
theorem sentScan_no_split : ∀ (s cur : List Char),
    noTermSpace (cur.reverse ++ s) = true →
    sentScan false cur s = [cur.reverse ++ s] := by
  intro s
  induction s with
  | nil => intro cur h; simp [sentScan]
  | cons c s' ih =>
    intro cur h
    have hcond : (pySpace c && headTerm cur) = false := by
      cases hcur : cur with
      | nil => simp [headTerm]
      | cons p cur' =>
        rw [hcur] at h
        have hlast : (p :: cur').reverse.getLast? = some p := by
          rw [List.reverse_cons, getLast?_append_right (by simp)]; rfl
        have hpair := chainB_middle_pair h hlast
        rw [Bool.not_eq_true'] at hpair
        rw [Bool.and_comm]
        exact hpair
    show (if pySpace c && headTerm cur then _ else sentScan false (c :: cur) s') = _
    rw [hcond]
    simp only [Bool.false_eq_true, if_false]
    have harr : (c :: cur).reverse ++ s' = cur.reverse ++ c :: s' := by
      rw [List.reverse_cons, List.append_assoc]; rfl
    rw [ih (c :: cur) (by rw [harr]; exact h), harr]

/-- After a separator, scanning in skip mode equals scanning in normal mode
when the next character is not whitespace. -/
theorem sentScan_skip_eq : ∀ (rest : List Char),
    (∀ d, rest.head? = some d → pySpace d = false) →
    sentScan true [] rest = sentScan false [] rest := by
  intro rest h
  cases rest with
  | nil => rfl
  | cons d cs =>
    have hd := h d rfl
    show (if pySpace d then _ else sentScan false [d] cs) = _
    rw [hd]
    show sentScan false [d] cs =
      (if pySpace d && headTerm [] then _ else sentScan false [d] cs)
    rw [hd]
    rfl

/-- Scanning a terminal-ended, split-free chunk followed by a single space
and a non-space continuation emits exactly that chunk. -/
theorem sentScan_split_step : ∀ (s : List Char) (t : Char) (cur rest : List Char),
    s.getLast? = some t → isTerm t = true →
    noTermSpace (cur.reverse ++ s) = true →
    (∀ d, rest.head? = some d → pySpace d = false) →
    sentScan false cur (s ++ ' ' :: rest) =
      (cur.reverse ++ s) :: sentScan false [] rest := by
  intro s
  induction s with
  | nil => intro t cur rest hlast; simp at hlast
  | cons c s' ih =>
    intro t cur rest hlast hterm hnts hrest
    cases s' with
    | nil =>
      simp only [List.getLast?_singleton, Option.some.injEq] at hlast
      subst hlast
      have hts := term_not_space hterm
      show (if pySpace c && headTerm cur then _
        else sentScan false (c :: cur) (' ' :: rest)) = _
      rw [hts]
      simp only [Bool.false_and, Bool.false_eq_true, if_false]
      show (if (pySpace ' ' && headTerm (c :: cur)) = true then
          (c :: cur).reverse :: sentScan true [] rest
        else _) = _
      have hcond2 : (pySpace ' ' && headTerm (c :: cur)) = true := by
        show (pySpace ' ' && isTerm c) = true
        rw [hterm]; rfl
      rw [hcond2, if_pos rfl]
      rw [List.reverse_cons, sentScan_skip_eq rest hrest]
    | cons x s'' =>
      rw [List.getLast?_cons_cons] at hlast
      have hcond : (pySpace c && headTerm cur) = false := by
        cases hcur : cur with
        | nil => simp [headTerm]
        | cons p cur' =>
          rw [hcur] at hnts
          have hlastr : (p :: cur').reverse.getLast? = some p := by
            rw [List.reverse_cons, getLast?_append_right (by simp)]; rfl
          have hpair := chainB_middle_pair hnts hlastr
          rw [Bool.not_eq_true'] at hpair
          rw [Bool.and_comm]
          exact hpair
      show (if pySpace c && headTerm cur then _
        else sentScan false (c :: cur) ((x :: s'') ++ ' ' :: rest)) = _
      rw [hcond]
      simp only [Bool.false_eq_true, if_false]
      have harr : (c :: cur).reverse ++ (x :: s'') = cur.reverse ++ c :: x :: s'' := by
        rw [List.reverse_cons, List.append_assoc]; rfl
      rw [ih t (c :: cur) rest hlast hterm (by rw [harr]; exact hnts) hrest, harr]

/-- The head of a space-join of qualifying sentences is not whitespace. -/
theorem joinSpace_head_not {t : List Char} {r : List (List Char)}
    (ht : SentLike t) :
    ∀ d, (joinSpace (t :: r)).head? = some d → pySpace d = false := by
  intro d hd
  cases r with
  | nil => exact stripped_head_not ht.1 hd
  | cons u r' =>
    rw [show joinSpace (t :: u :: r') = t ++ ' ' :: joinSpace (u :: r') from rfl,
      head?_append_left ht.ne_nil] at hd
    exact stripped_head_not ht.1 hd

/-- Re-scanning the space-join of a joinable list recovers the list. -/
theorem sentScan_joinSpace : ∀ (l : List (List Char)), Joinable l → l ≠ [] →
    sentScan false [] (joinSpace l) = l := by
  intro l
  induction l with
  | nil => intro _ h; exact absurd rfl h
  | cons s r ih =>
    intro hj _
    cases r with
    | nil =>
      show sentScan false [] s = [s]
      have := sentScan_no_split s []
      simpa using this (by simpa using (hj.1 s (by simp)).2.1)
    | cons t r' =>
      show sentScan false [] (s ++ ' ' :: joinSpace (t :: r')) = _
      obtain ⟨c, hc, hct⟩ := AELT_head hj.2 (by simp)
      rw [sentScan_split_step s c [] (joinSpace (t :: r')) hc hct
        (by simpa using (hj.1 s (by simp)).2.1)
        (joinSpace_head_not (hj.1 t (by simp)))]
      rw [ih ⟨fun u hu => hj.1 u (List.mem_cons_of_mem s hu), AELT_tail hj.2⟩
        (by simp)]
      simp

/-- `split_sentences` maps the space-join of a joinable list back to the
list itself. -/
theorem split_sentences_joinSpace {l : List (List Char)} (hj : Joinable l) :
    split_sentences (joinSpace l) = l := by
  cases l with
  | nil => decide
  | cons s r =>
    unfold split_sentences
    rw [sentScan_joinSpace (s :: r) hj (by simp)]
    rw [List.map_congr_left (fun a ha => (hj.1 a ha).1), List.map_id']
    exact List.filter_eq_self.mpr (fun a ha => by simpa using (hj.1 a ha).2.2)

/-! ## Facts about the segmentation output -/

theorem split_sentences_sentLike {text : List Char} :
    ∀ s ∈ split_sentences text, SentLike s := by
  intro s hs
  unfold split_sentences at hs
  rw [List.mem_filter] at hs
  obtain ⟨hmem, hlen⟩ := hs
  obtain ⟨part, hpart, hps⟩ := List.mem_map.mp hmem
  refine ⟨?_, ?_, by simpa using hlen⟩
  · rw [← hps]; exact pyStrip_idem part
  · rw [← hps]
    exact chainB_pyStrip (sentScan_noTermSpace text false [] rfl part hpart)

theorem split_sentences_AELT {text : List Char} : AELT (split_sentences text) :=
  AELT_sublist (List.filter_sublist _)
    (AELT_map (fun _ h => EndsTermP_pyStrip h) (sentScan_AELT text false []))

theorem Joinable_split_sentences {text : List Char} :
    Joinable (split_sentences text) :=
  ⟨split_sentences_sentLike, split_sentences_AELT⟩

/-- render_app.py:125-134 applied to a join of qualifying sentences: the
re-segmentation recovers exactly the sentences, so `clean_summary` is the
boilerplate filter followed by the join. -/
theorem clean_summary_joinSpace {l : List (List Char)} (hj : Joinable l) :
    clean_summary (joinSpace l) = joinSpace (l.filter (fun s => !isBoiler s)) := by
  unfold clean_summary
  rw [split_sentences_joinSpace hj]

/-! ## Edges of joins and whitespace collapses -/

theorem joinSpace_ne_nil {l : List (List Char)} (hne : l ≠ [])
    (h : ∀ s ∈ l, s ≠ []) : joinSpace l ≠ [] := by
  cases l with
  | nil => exact absurd rfl hne
  | cons s r =>
    cases r with
    | nil => exact h s (by simp)
    | cons t r' => simp [joinSpace]

theorem joinSpace_getLast_not {l : List (List Char)}
    (h : ∀ s ∈ l, SentLike s) :
    ∀ c, (joinSpace l).getLast? = some c → pySpace c = false := by
  induction l with
  | nil => intro c hc; simp [joinSpace] at hc
  | cons s r ih =>
    intro c hc
    cases r with
    | nil => exact stripped_getLast_not (h s (by simp)).1 hc
    | cons t r' =>
      rw [show joinSpace (s :: t :: r') = s ++ ' ' :: joinSpace (t :: r') from rfl,
        getLast?_append_right (by simp),
        show (' ' :: joinSpace (t :: r') : List Char) = [' '] ++ joinSpace (t :: r') from rfl,
        getLast?_append_right] at hc
      · exact ih (fun u hu => h u (List.mem_cons_of_mem s hu)) c hc
      · exact joinSpace_ne_nil (by simp)
          (fun u hu => (h u (List.mem_cons_of_mem s hu)).ne_nil)

theorem pyStrip_joinSpace {l : List (List Char)} (h : ∀ s ∈ l, SentLike s) :
    pyStrip (joinSpace l) = joinSpace l := by
  cases l with
  | nil => rfl
  | cons s r =>
    exact stripped_of_edges (joinSpace_head_not (h s (by simp)))
      (joinSpace_getLast_not h)

theorem getLast?_ne_nil {l : List Char} {c : Char} (h : l.getLast? = some c) :
    l ≠ [] := by
  intro h0; subst h0; simp at h

theorem collapseAux_cons (b : Bool) (c : Char) (cs : List Char) :
    collapseAux b (c :: cs) =
      if pySpace c = true then
        (if b = true then collapseAux true cs else ' ' :: collapseAux true cs)
      else c :: collapseAux false cs := rfl

theorem collapseAux_sep : ∀ (s : List Char) (b : Bool) (rest : List Char),
    (∀ z, s.getLast? = some z → pySpace z = false) → s ≠ [] →
    collapseAux b (s ++ ' ' :: rest) =
      collapseAux b s ++ ' ' :: collapseAux true rest := by
  intro s
  induction s with
  | nil => intro b rest _ hne; exact absurd rfl hne
  | cons c s' ih =>
    intro b rest hlast _
    cases s' with
    | nil =>
      have hc : pySpace c = false := hlast c rfl
      show collapseAux b (c :: ' ' :: rest) = _
      rw [collapseAux_cons b c (' ' :: rest), collapseAux_cons b c []]
      rw [if_neg (by rw [hc]; exact Bool.false_ne_true),
        if_neg (by rw [hc]; exact Bool.false_ne_true)]
      rfl
    | cons x s'' =>
      have hlast' : ∀ z, (x :: s'').getLast? = some z → pySpace z = false := by
        intro z hz; exact hlast z (by rw [List.getLast?_cons_cons]; exact hz)
      show collapseAux b (c :: ((x :: s'') ++ ' ' :: rest)) = _
      rw [collapseAux_cons b c ((x :: s'') ++ ' ' :: rest),
        collapseAux_cons b c (x :: s'')]
      by_cases hc : pySpace c = true
      · rw [if_pos hc, if_pos hc]
        cases b with
        | true =>
          rw [if_pos rfl, if_pos rfl]
          exact ih true rest hlast' (by simp)
        | false =>
          rw [if_neg Bool.false_ne_true, if_neg Bool.false_ne_true,
            ih true rest hlast' (by simp)]
          rfl
      · rw [if_neg hc, if_neg hc, ih false rest hlast' (by simp)]
        rfl

theorem collapseAux_true_eq_false {rest : List Char}
    (h : ∀ d, rest.head? = some d → pySpace d = false) :
    collapseAux true rest = collapseAux false rest := by
  cases rest with
  | nil => rfl
  | cons d cs =>
    have := h d rfl
    simp only [collapseAux, this, Bool.false_eq_true, if_false]

theorem collapseWs_joinSpace {l : List (List Char)} (h : ∀ s ∈ l, SentLike s) :
    collapseWs (joinSpace l) = joinSpace (l.map collapseWs) := by
  induction l with
  | nil => rfl
  | cons s r ih =>
    cases r with
    | nil => rfl
    | cons t r' =>
      show collapseAux false (s ++ ' ' :: joinSpace (t :: r')) = _
      rw [collapseAux_sep s false _
        (fun z hz => stripped_getLast_not (h s (by simp)).1 hz)
        (h s (by simp)).ne_nil]
      rw [collapseAux_true_eq_false (joinSpace_head_not (h t (by simp)))]
      show collapseWs s ++ ' ' :: collapseWs (joinSpace (t :: r')) = _
      rw [ih (fun u hu => h u (List.mem_cons_of_mem s hu))]
      rfl

theorem collapseAux_getLast : ∀ (s : List Char) (b : Bool) (z : Char),
    s.getLast? = some z → pySpace z = false →
    (collapseAux b s).getLast? = some z := by
  intro s
  induction s with
  | nil => intro b z hz; simp at hz
  | cons c s' ih =>
    intro b z hz hns
    cases s' with
    | nil =>
      simp only [List.getLast?_singleton, Option.some.injEq] at hz
      subst hz
      simp only [collapseAux, hns, Bool.false_eq_true, if_false]
      rfl
    | cons x s'' =>
      rw [List.getLast?_cons_cons] at hz
      have htail : ∀ b', (collapseAux b' (x :: s'')).getLast? = some z :=
        fun b' => ih b' z hz hns
      have hne : ∀ b', collapseAux b' (x :: s'') ≠ [] :=
        fun b' => getLast?_ne_nil (htail b')
      rw [collapseAux_cons b c (x :: s'')]
      by_cases hc : pySpace c = true
      · rw [if_pos hc]
        cases b with
        | true => rw [if_pos rfl]; exact htail true
        | false =>
          rw [if_neg Bool.false_ne_true]
          rw [show (' ' :: collapseAux true (x :: s'') : List Char) =
            [' '] ++ collapseAux true (x :: s'') from rfl,
            getLast?_append_right (hne true)]
          exact htail true
      · rw [if_neg hc]
        rw [show (c :: collapseAux false (x :: s'') : List Char) =
          [c] ++ collapseAux false (x :: s'') from rfl,
          getLast?_append_right (hne false)]
        exact htail false

theorem collapseWs_getLast {s : List Char} {z : Char} (hz : s.getLast? = some z)
    (hns : pySpace z = false) : (collapseWs s).getLast? = some z :=
  collapseAux_getLast s false z hz hns

theorem collapseWs_head {s : List Char} {c : Char} (hc : s.head? = some c)
    (hns : pySpace c = false) : (collapseWs s).head? = some c := by
  cases s with
  | nil => simp at hc
  | cons a cs =>
    simp only [List.head?_cons, Option.some.injEq] at hc
    subst hc
    show (collapseAux false (a :: cs)).head? = some a
    simp only [collapseAux, hns, Bool.false_eq_true, if_false]
    rfl

theorem collapseWs_stripped {s : List Char} (h : pyStrip s = s) :
    pyStrip (collapseWs s) = collapseWs s := by
  apply stripped_of_edges
  · intro c hc
    cases s with
    | nil => simp [collapseWs, collapseAux] at hc
    | cons a cs =>
      have ha := stripped_head_not h (l := a :: cs) rfl
      rw [collapseWs_head (s := a :: cs) rfl ha] at hc
      injection hc with hc; subst hc; exact ha
  · intro c hc
    cases hz : (s : List Char).getLast? with
    | none =>
      have : s = [] := by
        cases s with
        | nil => rfl
        | cons a cs => simp [List.getLast?_eq_getLast] at hz
      subst this
      simp [collapseWs, collapseAux] at hc
    | some z =>
      have hns := stripped_getLast_not h hz
      rw [collapseWs_getLast hz hns] at hc
      injection hc with hc; subst hc; exact hns

theorem collapseWs_ne_nil {s : List Char} (hne : s ≠ [])
    (h : pyStrip s = s) : collapseWs s ≠ [] := by
  cases s with
  | nil => exact absurd rfl hne
  | cons a cs =>
    have ha := stripped_head_not h (l := a :: cs) rfl
    intro h0
    have := collapseWs_head (s := a :: cs) rfl ha
    rw [h0] at this
    simp at this

theorem collapseAux_true_head_not : ∀ (z : List Char) (c : Char),
    (collapseAux true z).head? = some c → pySpace c = false := by
  intro z
  induction z with
  | nil => intro c hc; simp [collapseAux] at hc
  | cons d cs ih =>
    intro c hc
    by_cases hd : pySpace d = true
    · simp only [collapseAux, hd, if_true] at hc
      exact ih c hc
    · rw [Bool.not_eq_true] at hd
      simp only [collapseAux, hd, Bool.false_eq_true, if_false,
        List.head?_cons, Option.some.injEq] at hc
      subst hc; exact hd

theorem noDoubleWs_collapseAux : ∀ (z : List Char) (b : Bool),
    noDoubleWs (collapseAux b z) = true := by
  intro z
  induction z with
  | nil => intro b; rfl
  | cons c cs ih =>
    intro b
    rw [collapseAux_cons b c cs]
    by_cases hc : pySpace c = true
    · rw [if_pos hc]
      cases b with
      | true => rw [if_pos rfl]; exact ih true
      | false =>
        rw [if_neg Bool.false_ne_true]
        rw [show noDoubleWs (' ' :: collapseAux true cs) =
          chainB (fun a b => !(pySpace a && pySpace b)) (' ' :: collapseAux true cs)
          from rfl, chainB_cons_iff]
        refine ⟨?_, ih true⟩
        intro d hd
        rw [collapseAux_true_head_not cs d hd]
        simp
    · rw [if_neg hc]
      rw [Bool.not_eq_true] at hc
      rw [show noDoubleWs (c :: collapseAux false cs) =
        chainB (fun a b => !(pySpace a && pySpace b)) (c :: collapseAux false cs)
        from rfl, chainB_cons_iff]
      refine ⟨?_, ih false⟩
      intro d hd
      rw [hc]
      simp

theorem noDoubleWs_collapseWs (z : List Char) :
    noDoubleWs (collapseWs z) = true := noDoubleWs_collapseAux z false

theorem noDoubleWs_pyStrip {l : List Char} (h : noDoubleWs l = true) :
    noDoubleWs (pyStrip l) = true := chainB_pyStrip h

/-! ## Tokens of a join -/

theorem tokenRunsAux_cons (cur : List Char) (c : Char) (cs : List Char) :
    tokenRunsAux cur (c :: cs) =
      if isWordChar c = true then tokenRunsAux (c :: cur) cs
      else if cur.isEmpty = true then tokenRunsAux [] cs
      else cur.reverse :: tokenRunsAux [] cs := rfl

theorem tokenRunsAux_sep : ∀ (s cur rest : List Char),
    tokenRunsAux cur (s ++ ' ' :: rest) =
      tokenRunsAux cur s ++ tokenRunsAux [] rest := by
  intro s
  induction s with
  | nil =>
    intro cur rest
    have hnil : tokenRunsAux cur [] =
        (if cur.isEmpty = true then [] else [cur.reverse]) := rfl
    rw [List.nil_append, tokenRunsAux_cons, if_neg (by decide), hnil]
    by_cases hc : cur.isEmpty = true
    · rw [if_pos hc, if_pos hc, List.nil_append]
    · rw [if_neg hc, if_neg hc]
      rfl
  | cons c s' ih =>
    intro cur rest
    rw [List.cons_append, tokenRunsAux_cons, tokenRunsAux_cons cur c s']
    by_cases hw : isWordChar c = true
    · rw [if_pos hw, if_pos hw, ih]
    · rw [if_neg hw, if_neg hw]
      by_cases hc : cur.isEmpty = true
      · rw [if_pos hc, if_pos hc, ih]
      · rw [if_neg hc, if_neg hc, ih]
        rfl

theorem pyLower_joinSpace : ∀ (l : List (List Char)),
    pyLower (joinSpace l) = joinSpace (l.map pyLower) := by
  intro l
  induction l with
  | nil => rfl
  | cons s r ih =>
    cases r with
    | nil => rfl
    | cons t r' =>
      show pyLower (s ++ ' ' :: joinSpace (t :: r')) = _
      unfold pyLower
      rw [List.map_append, List.map_cons]
      show _ ++ ' ' :: pyLower (joinSpace (t :: r')) = _
      rw [ih]
      rfl

theorem tokenize_words_joinSpace : ∀ (l : List (List Char)),
    tokenize_words (joinSpace l) = (l.map tokenize_words).flatten := by
  intro l
  induction l with
  | nil => rfl
  | cons s r ih =>
    cases r with
    | nil => show tokenize_words s = _; simp
    | cons t r' =>
      show tokenize_words (s ++ ' ' :: joinSpace (t :: r')) = _
      unfold tokenize_words tokenRuns
      rw [show pyLower (s ++ ' ' :: joinSpace (t :: r')) =
        pyLower s ++ ' ' :: pyLower (joinSpace (t :: r')) from by
          unfold pyLower; rw [List.map_append]; rfl]
      rw [tokenRunsAux_sep, List.filter_append]
      show tokenize_words s ++ tokenize_words (joinSpace (t :: r')) = _
      rw [ih]
      rfl

/-- The kept (non-stopword) words are the concatenation of the per-sentence
kept words of the capped sentences. -/
theorem keptWordsOf_flatten (text : List Char) :
    keptWordsOf text = ((cappedSentences text).map
      (fun s => (tokenize_words s).filter (fun w => !STOPWORDS.contains w))).flatten := by
  unfold keptWordsOf
  rw [tokenize_words_joinSpace, List.filter_flatten, List.map_map]
  rfl

theorem keptWordsOf_ne_nil_exists {text : List Char}
    (h : keptWordsOf text ≠ []) :
    ∃ s ∈ cappedSentences text, tokenize_words s ≠ [] := by
  rw [keptWordsOf_flatten] at h
  have := (not_iff_not.mpr (List.flatten_eq_nil_iff)).mp h
  push_neg at this
  obtain ⟨x, hx, hxne⟩ := this
  obtain ⟨s, hs, hsx⟩ := List.mem_map.mp hx
  refine ⟨s, hs, ?_⟩
  intro h0
  rw [← hsx, h0] at hxne
  exact hxne rfl

theorem split_ne_nil_of_keptWords {text : List Char}
    (h : keptWordsOf text ≠ []) : split_sentences text ≠ [] := by
  intro h0
  apply h
  unfold keptWordsOf cappedSentences
  rw [h0]
  rfl

/-! ## Substring occurrence lemmas -/

theorem isSubAt_iff : ∀ (pat l : List Char),
    isSubAt pat l = true ↔ ∃ v, l = pat ++ v := by
  intro pat
  induction pat with
  | nil =>
    intro l
    constructor
    · intro _; exact ⟨l, rfl⟩
    · intro _; rfl
  | cons p ps ih =>
    intro l
    cases l with
    | nil =>
      simp only [isSubAt]
      constructor
      · intro h; exact absurd h Bool.false_ne_true
      · rintro ⟨v, hv⟩
        rw [List.cons_append] at hv
        exact absurd hv.symm (List.cons_ne_nil _ _)
    | cons c cs =>
      show (decide (p = c) && isSubAt ps cs) = true ↔ _
      rw [Bool.and_eq_true_iff, decide_eq_true_iff, ih cs]
      constructor
      · rintro ⟨hpc, v, hv⟩
        exact ⟨v, by rw [hpc, hv]; rfl⟩
      · rintro ⟨v, hv⟩
        rw [List.cons_append] at hv
        injection hv with h1 h2
        exact ⟨h1.symm, v, h2⟩

theorem containsSub_iff : ∀ (pat l : List Char),
    containsSub pat l = true ↔ ∃ u v, l = u ++ pat ++ v := by
  intro pat l
  induction l with
  | nil =>
    show isSubAt pat [] = true ↔ _
    rw [isSubAt_iff]
    constructor
    · rintro ⟨v, hv⟩; exact ⟨[], v, hv⟩
    · rintro ⟨u, v, hv⟩
      have hu : u = [] := by
        cases u with
        | nil => rfl
        | cons a b =>
          rw [List.cons_append, List.cons_append] at hv
          exact absurd hv (by simp)
      subst hu
      exact ⟨v, by simpa using hv⟩
  | cons c cs ih =>
    show (isSubAt pat (c :: cs) || containsSub pat cs) = true ↔ _
    rw [Bool.or_eq_true_iff, isSubAt_iff, ih]
    constructor
    · rintro (⟨v, hv⟩ | ⟨u, v, hv⟩)
      · exact ⟨[], v, by simpa using hv⟩
      · exact ⟨c :: u, v, by rw [hv]; rfl⟩
    · rintro ⟨u, v, hv⟩
      cases u with
      | nil => exact Or.inl ⟨v, by simpa using hv⟩
      | cons x u' =>
        rw [List.cons_append, List.cons_append] at hv
        injection hv with h1 h2
        exact Or.inr ⟨u', v, h2⟩

theorem containsSub_trans {p q l : List Char} (h1 : containsSub p q = true)
    (h2 : containsSub q l = true) : containsSub p l = true := by
  rw [containsSub_iff] at h1 h2 ⊢
  obtain ⟨u1, v1, h1⟩ := h1
  obtain ⟨u2, v2, h2⟩ := h2
  exact ⟨u2 ++ u1, v1 ++ v2, by rw [h2, h1]; simp [List.append_assoc]⟩

theorem containsSub_cons {pat t : List Char} {c : Char}
    (h : containsSub pat t = true) : containsSub pat (c :: t) = true := by
  show (isSubAt pat (c :: t) || containsSub pat t) = true
  rw [h, Bool.or_true]

theorem containsSub_of_middle {pat u v l : List Char}
    (h : containsSub pat l = true) :
    containsSub pat (u ++ l ++ v) = true := by
  rw [containsSub_iff] at h ⊢
  obtain ⟨a, b, hab⟩ := h
  exact ⟨u ++ a, b ++ v, by rw [hab]; simp [List.append_assoc]⟩

theorem containsSub_pyStrip {pat X : List Char}
    (h : containsSub pat (pyStrip X) = true) : containsSub pat X = true := by
  have h1 : X = X.takeWhile pySpace ++ X.dropWhile pySpace :=
    dropWhile_append_self pySpace X
  have h2 : X.dropWhile pySpace = pyStrip X ++
      ((X.dropWhile pySpace).reverse.takeWhile pySpace).reverse :=
    dropTrail_append (X.dropWhile pySpace)
  rw [h1, h2, ← List.append_assoc]
  exact containsSub_of_middle h

theorem containsSub_map {pat x : List Char} (f : Char → Char)
    (h : containsSub pat x = true) :
    containsSub (pat.map f) (x.map f) = true := by
  rw [containsSub_iff] at h ⊢
  obtain ⟨u, v, huv⟩ := h
  exact ⟨u.map f, v.map f, by rw [huv]; simp⟩

theorem pat_head_not_space {p : Char} {ps b : List Char}
    (hns : ∀ c ∈ p :: ps, pySpace c = false)
    (h : isSubAt (p :: ps) (' ' :: b) = true) : False := by
  have hand : (decide (p = ' ') && isSubAt ps b) = true := h
  rcases Bool.and_eq_true_iff.mp hand with ⟨h1, _⟩
  have hp := decide_eq_true_iff.mp h1
  have hsp := hns p (by simp)
  rw [hp] at hsp
  exact absurd hsp (by decide)

theorem isSubAt_before_sep : ∀ (pat : List Char),
    (∀ c ∈ pat, pySpace c = false) →
    ∀ (a b : List Char), isSubAt pat (a ++ ' ' :: b) = true →
    isSubAt pat a = true := by
  intro pat
  induction pat with
  | nil => intro _ a b _; rfl
  | cons p ps ih =>
    intro hns a b h
    cases a with
    | nil =>
      rw [List.nil_append] at h
      exact absurd (pat_head_not_space hns h) (by simp)
    | cons c cs =>
      rw [List.cons_append] at h
      have hand : (decide (p = c) && isSubAt ps (cs ++ ' ' :: b)) = true := h
      rcases Bool.and_eq_true_iff.mp hand with ⟨h1, h2⟩
      show (decide (p = c) && isSubAt ps cs) = true
      rw [h1, Bool.true_and]
      exact ih (fun d hd => hns d (List.mem_cons_of_mem p hd)) cs b h2

theorem containsSub_sep {pat : List Char} (hne : pat ≠ [])
    (hns : ∀ c ∈ pat, pySpace c = false) :
    ∀ (a b : List Char), containsSub pat (a ++ ' ' :: b) = true →
    containsSub pat a = true ∨ containsSub pat b = true := by
  intro a
  induction a with
  | nil =>
    intro b h
    rw [List.nil_append] at h
    rcases Bool.or_eq_true_iff.mp h with h1 | h1
    · exfalso
      cases pat with
      | nil => exact hne rfl
      | cons p ps => exact pat_head_not_space hns h1
    · exact Or.inr h1
  | cons c cs ih =>
    intro b h
    rw [List.cons_append] at h
    rcases Bool.or_eq_true_iff.mp h with h1 | h1
    · left
      show (isSubAt pat (c :: cs) || containsSub pat cs) = true
      rw [isSubAt_before_sep pat hns (c :: cs) b h1]
      rfl
    · rcases ih b h1 with h2 | h2
      · exact Or.inl (containsSub_cons h2)
      · exact Or.inr h2

theorem containsSub_joinSpace {pat : List Char} (hne : pat ≠ [])
    (hns : ∀ c ∈ pat, pySpace c = false) :
    ∀ (l : List (List Char)), containsSub pat (joinSpace l) = true →
    ∃ s ∈ l, containsSub pat s = true := by
  intro l
  induction l with
  | nil =>
    intro h
    exfalso
    cases pat with
    | nil => exact hne rfl
    | cons p ps => exact Bool.false_ne_true h
  | cons s r ih =>
    intro h
    cases r with
    | nil => exact ⟨s, by simp, h⟩
    | cons t r' =>
      rw [show joinSpace (s :: t :: r') = s ++ ' ' :: joinSpace (t :: r') from rfl] at h
      rcases containsSub_sep hne hns s (joinSpace (t :: r')) h with h1 | h1
      · exact ⟨s, by simp, h1⟩
      · obtain ⟨u, hu, hcu⟩ := ih h1
        exact ⟨u, List.mem_cons_of_mem s hu, hcu⟩

theorem isSubAt_collapseAux : ∀ (x pat : List Char),
    (∀ c ∈ pat, pySpace c = false) →
    isSubAt pat (collapseAux false x) = true → isSubAt pat x = true := by
  intro x
  induction x with
  | nil => intro pat _ h; exact h
  | cons c cs ih =>
    intro pat hns h
    rw [collapseAux_cons] at h
    by_cases hc : pySpace c = true
    · rw [if_pos hc, if_neg Bool.false_ne_true] at h
      cases pat with
      | nil => rfl
      | cons p ps => exact absurd (pat_head_not_space hns h) (by simp)
    · rw [if_neg hc] at h
      cases pat with
      | nil => rfl
      | cons p ps =>
        have hand : (decide (p = c) && isSubAt ps (collapseAux false cs)) = true := h
        rcases Bool.and_eq_true_iff.mp hand with ⟨h1, h2⟩
        show (decide (p = c) && isSubAt ps cs) = true
        rw [h1, Bool.true_and]
        exact ih ps (fun d hd => hns d (List.mem_cons_of_mem p hd)) h2

theorem containsSub_collapseAux : ∀ (x : List Char) (b : Bool) (pat : List Char),
    pat ≠ [] → (∀ c ∈ pat, pySpace c = false) →
    containsSub pat (collapseAux b x) = true → containsSub pat x = true := by
  intro x
  induction x with
  | nil => intro b pat _ _ h; exact h
  | cons c cs ih =>
    intro b pat hne hns h
    rw [collapseAux_cons] at h
    by_cases hc : pySpace c = true
    · rw [if_pos hc] at h
      cases b with
      | true =>
        rw [if_pos rfl] at h
        exact containsSub_cons (ih true pat hne hns h)
      | false =>
        rw [if_neg Bool.false_ne_true] at h
        rcases Bool.or_eq_true_iff.mp h with h1 | h1
        · exfalso
          cases pat with
          | nil => exact hne rfl
          | cons p ps => exact pat_head_not_space hns h1
        · exact containsSub_cons (ih true pat hne hns h1)
    · rw [if_neg hc] at h
      rcases Bool.or_eq_true_iff.mp h with h1 | h1
      · have h2 : isSubAt pat (collapseAux false (c :: cs)) = true := by
          rw [collapseAux_cons, if_neg hc]
          exact h1
        have h3 := isSubAt_collapseAux (c :: cs) pat hns h2
        show (isSubAt pat (c :: cs) || containsSub pat cs) = true
        rw [h3]
        rfl
      · exact containsSub_cons (ih false pat hne hns h1)

theorem containsSub_collapseWs {pat x : List Char} (hne : pat ≠ [])
    (hns : ∀ c ∈ pat, pySpace c = false)
    (h : containsSub pat (collapseWs x) = true) :
    containsSub pat x = true :=
  containsSub_collapseAux x false pat hne hns h

/-! ## Counts and the maximum frequency -/

theorem foldl_max_init_le (xs : List ℕ) : ∀ (a : ℕ), a ≤ xs.foldl max a := by
  induction xs with
  | nil => intro a; exact Nat.le_refl a
  | cons x xs ih =>
    intro a
    exact Nat.le_trans (Nat.le_max_left a x) (ih (max a x))

theorem foldl_max_mem_le (xs : List ℕ) : ∀ (a y : ℕ), y ∈ xs → y ≤ xs.foldl max a := by
  induction xs with
  | nil => intro a y hy; simp at hy
  | cons x xs ih =>
    intro a y hy
    rcases List.mem_cons.mp hy with h | h
    · subst h
      exact Nat.le_trans (Nat.le_max_right a y) (foldl_max_init_le xs (max a y))
    · exact ih (max a x) y h

theorem foldl_max_attained (xs : List ℕ) : ∀ (a : ℕ),
    xs.foldl max a = a ∨ xs.foldl max a ∈ xs := by
  induction xs with
  | nil => intro a; exact Or.inl rfl
  | cons x xs ih =>
    intro a
    rcases ih (max a x) with h | h
    · rcases max_choice a x with h2 | h2
      · exact Or.inl (by rw [List.foldl_cons, h, h2])
      · exact Or.inr (by rw [List.foldl_cons, h, h2]; simp)
    · exact Or.inr (List.mem_cons_of_mem x h)

theorem pyMaxNat_of_ne_nil {ws : List (List Char)} (h : ws ≠ []) :
    pyMaxNat (ws.map (fun w => ws.count w)) = some (maxFreq ws) := by
  cases ws with
  | nil => exact absurd rfl h
  | cons w l => rfl

theorem count_le_maxFreq {ws : List (List Char)} {w : List Char} (h : w ∈ ws) :
    ws.count w ≤ maxFreq ws := by
  cases hws : ws with
  | nil => subst hws; simp at h
  | cons w0 l =>
    subst hws
    show _ ≤ ((pyMaxNat (((w0 :: l).map (fun w => (w0 :: l).count w)))).getD 0)
    rw [show ((w0 :: l).map (fun w => (w0 :: l).count w)) =
      ((w0 :: l).count w0) :: (l.map (fun w => (w0 :: l).count w)) from rfl]
    show _ ≤ (l.map (fun w => (w0 :: l).count w)).foldl max ((w0 :: l).count w0)
    rcases List.mem_cons.mp h with h1 | h1
    · subst h1; exact foldl_max_init_le _ _
    · exact foldl_max_mem_le _ _ _ (List.mem_map.mpr ⟨w, h1, rfl⟩)

theorem maxFreq_attained {ws : List (List Char)} (h : ws ≠ []) :
    ∃ w ∈ ws, ws.count w = maxFreq ws := by
  cases hws : ws with
  | nil => exact absurd hws h
  | cons w0 l =>
    subst hws
    have : maxFreq (w0 :: l) =
        (l.map (fun w => (w0 :: l).count w)).foldl max ((w0 :: l).count w0) := rfl
    rcases foldl_max_attained (l.map (fun w => (w0 :: l).count w))
        ((w0 :: l).count w0) with h1 | h1
    · exact ⟨w0, by simp, by rw [this, h1]⟩
    · obtain ⟨w, hw, hcw⟩ := List.mem_map.mp h1
      exact ⟨w, List.mem_cons_of_mem w0 hw, by rw [this, hcw]⟩

theorem one_le_maxFreq {ws : List (List Char)} (h : ws ≠ []) :
    1 ≤ maxFreq ws := by
  cases hws : ws with
  | nil => exact absurd hws h
  | cons w0 l =>
    subst hws
    have h1 : (w0 :: l).count w0 ≤ maxFreq (w0 :: l) := count_le_maxFreq (by simp)
    have h2 : 1 ≤ (w0 :: l).count w0 := List.count_pos_iff.mpr (by simp)
    omega

/-! ## Enumeration -/

theorem pyEnum_fst_ge {α : Type} : ∀ (l : List α) (n : ℕ) (p : ℕ × α),
    p ∈ pyEnum n l → n ≤ p.1 := by
  intro l
  induction l with
  | nil => intro n p hp; simp [pyEnum] at hp
  | cons a l ih =>
    intro n p hp
    rcases List.mem_cons.mp hp with h | h
    · subst h; exact Nat.le_refl n
    · exact Nat.le_trans (Nat.le_succ n) (ih (n + 1) p h)

theorem pyEnum_pairwise_lt {α : Type} : ∀ (l : List α) (n : ℕ),
    (pyEnum n l).Pairwise (fun p q => p.1 < q.1) := by
  intro l
  induction l with
  | nil => intro n; exact List.Pairwise.nil
  | cons a l ih =>
    intro n
    refine List.Pairwise.cons ?_ (ih (n + 1))
    intro q hq
    exact Nat.lt_of_lt_of_le (Nat.lt_succ_self n) (pyEnum_fst_ge l (n + 1) q hq)

theorem pyEnum_mem_getElem {α : Type} : ∀ (l : List α) (n : ℕ) (p : ℕ × α),
    p ∈ pyEnum n l → n ≤ p.1 ∧ l[p.1 - n]? = some p.2 := by
  intro l
  induction l with
  | nil => intro n p hp; simp [pyEnum] at hp
  | cons a l ih =>
    intro n p hp
    rcases List.mem_cons.mp hp with h | h
    · subst h
      exact ⟨Nat.le_refl n, by simp⟩
    · obtain ⟨h1, h2⟩ := ih (n + 1) p h
      refine ⟨Nat.le_trans (Nat.le_succ n) h1, ?_⟩
      have : p.1 - n = (p.1 - (n + 1)) + 1 := by omega
      rw [this, List.getElem?_cons_succ]
      exact h2

theorem pyEnum_mem_of_mem {α : Type} : ∀ (l : List α) (n : ℕ) (a : α),
    a ∈ l → ∃ i, (i, a) ∈ pyEnum n l := by
  intro l
  induction l with
  | nil => intro n a ha; simp at ha
  | cons x l ih =>
    intro n a ha
    rcases List.mem_cons.mp ha with h | h
    · subst h; exact ⟨n, by simp [pyEnum]⟩
    · obtain ⟨i, hi⟩ := ih (n + 1) a h
      exact ⟨i, List.mem_cons_of_mem _ hi⟩

/-! ## The stable sorts: permutation and sortedness -/

/-- The strict before-order realised by the descending stable sort: larger
key first, ties by original (ascending) index — i.e. by earlier position in
the scored list, since the scored list is indexed in increasing order. -/
def Rdesc (a b : ℕ × ℚ × List Char) : Prop :=
  b.2.1 < a.2.1 ∨ (a.2.1 = b.2.1 ∧ a.1 < b.1)

theorem insertDesc_perm (x : ℕ × ℚ × List Char) :
    ∀ (l : List (ℕ × ℚ × List Char)), Perm (insertDesc x l) (x :: l) := by
  intro l
  induction l with
  | nil => exact List.Perm.refl _
  | cons y ys ih =>
    show Perm (if y.2.1 < x.2.1 then x :: y :: ys else y :: insertDesc x ys) _
    by_cases h : y.2.1 < x.2.1
    · rw [if_pos h]
    · rw [if_neg h]
      exact ((ih.cons y).trans (List.Perm.swap x y ys))

theorem insertDesc_mem {x z : ℕ × ℚ × List Char} {l : List (ℕ × ℚ × List Char)}
    (h : z ∈ insertDesc x l) : z = x ∨ z ∈ l :=
  List.mem_cons.mp ((insertDesc_perm x l).mem_iff.mp h)

theorem insertDesc_pairwise {x : ℕ × ℚ × List Char}
    {l : List (ℕ × ℚ × List Char)} (hl : l.Pairwise Rdesc)
    (hidx : ∀ y ∈ l, y.1 < x.1) : (insertDesc x l).Pairwise Rdesc := by
  induction l with
  | nil => exact List.pairwise_singleton _ _
  | cons y ys ih =>
    show ((if y.2.1 < x.2.1 then x :: y :: ys else y :: insertDesc x ys)).Pairwise Rdesc
    rcases List.pairwise_cons.mp hl with ⟨hy, hys⟩
    by_cases h : y.2.1 < x.2.1
    · rw [if_pos h]
      refine List.Pairwise.cons ?_ hl
      intro z hz
      rcases List.mem_cons.mp hz with h1 | h1
      · subst h1; exact Or.inl h
      · have := hy z h1
        rcases this with h2 | ⟨h2, _⟩
        · exact Or.inl (lt_trans h2 h)
        · exact Or.inl (by rw [← h2]; exact h)
    · rw [if_neg h]
      refine List.Pairwise.cons ?_ (ih hys (fun u hu => hidx u (List.mem_cons_of_mem y hu)))
      intro z hz
      rcases insertDesc_mem hz with h1 | h1
      · subst h1
        rcases lt_or_eq_of_le (le_of_not_lt h) with h2 | h2
        · exact Or.inl h2
        · exact Or.inr ⟨h2.symm, hidx y (by simp)⟩
      · exact hy z h1

theorem sortDesc_perm_aux : ∀ (l acc : List (ℕ × ℚ × List Char)),
    Perm (l.foldl (fun acc x => insertDesc x acc) acc) (l ++ acc) := by
  intro l
  induction l with
  | nil => intro acc; exact List.Perm.refl _
  | cons x l ih =>
    intro acc
    show Perm (l.foldl _ (insertDesc x acc)) _
    refine (ih (insertDesc x acc)).trans ?_
    refine ((insertDesc_perm x acc).append_left l).trans ?_
    exact List.perm_middle

theorem sortDesc_perm (l : List (ℕ × ℚ × List Char)) :
    Perm (sortDesc l) l := by
  have := sortDesc_perm_aux l []
  simpa using this

theorem sortDesc_pairwise_aux : ∀ (l acc : List (ℕ × ℚ × List Char)),
    l.Pairwise (fun a b => a.1 < b.1) → acc.Pairwise Rdesc →
    (∀ y ∈ acc, ∀ x ∈ l, y.1 < x.1) →
    (l.foldl (fun acc x => insertDesc x acc) acc).Pairwise Rdesc := by
  intro l
  induction l with
  | nil => intro acc _ h2 _; exact h2
  | cons x l ih =>
    intro acc h1 h2 h3
    rcases List.pairwise_cons.mp h1 with ⟨hx, hl⟩
    show (l.foldl _ (insertDesc x acc)).Pairwise Rdesc
    refine ih (insertDesc x acc) hl
      (insertDesc_pairwise h2 (fun y hy => h3 y hy x (by simp))) ?_
    intro y hy z hz
    rcases insertDesc_mem hy with h4 | h4
    · subst h4; exact hx z hz
    · exact h3 y h4 z (List.mem_cons_of_mem x hz)

theorem sortDesc_pairwise {l : List (ℕ × ℚ × List Char)}
    (h : l.Pairwise (fun a b => a.1 < b.1)) :
    (sortDesc l).Pairwise Rdesc :=
  sortDesc_pairwise_aux l [] h List.Pairwise.nil (fun y hy => by simp at hy)

theorem insertAscIdx_perm (x : ℕ × ℚ × List Char) :
    ∀ (l : List (ℕ × ℚ × List Char)), Perm (insertAscIdx x l) (x :: l) := by
  intro l
  induction l with
  | nil => exact List.Perm.refl _
  | cons y ys ih =>
    show Perm (if x.1 < y.1 then x :: y :: ys else y :: insertAscIdx x ys) _
    by_cases h : x.1 < y.1
    · rw [if_pos h]
    · rw [if_neg h]
      exact ((ih.cons y).trans (List.Perm.swap x y ys))

theorem insertAscIdx_mem {x z : ℕ × ℚ × List Char} {l : List (ℕ × ℚ × List Char)}
    (h : z ∈ insertAscIdx x l) : z = x ∨ z ∈ l :=
  List.mem_cons.mp ((insertAscIdx_perm x l).mem_iff.mp h)

theorem insertAscIdx_pairwise {x : ℕ × ℚ × List Char}
    {l : List (ℕ × ℚ × List Char)} (hl : l.Pairwise (fun a b => a.1 < b.1))
    (hidx : ∀ y ∈ l, y.1 ≠ x.1) :
    (insertAscIdx x l).Pairwise (fun a b => a.1 < b.1) := by
  induction l with
  | nil => exact List.pairwise_singleton _ _
  | cons y ys ih =>
    show ((if x.1 < y.1 then x :: y :: ys else y :: insertAscIdx x ys)).Pairwise _
    rcases List.pairwise_cons.mp hl with ⟨hy, hys⟩
    by_cases h : x.1 < y.1
    · rw [if_pos h]
      refine List.Pairwise.cons ?_ hl
      intro z hz
      rcases List.mem_cons.mp hz with h1 | h1
      · subst h1; exact h
      · exact lt_trans h (hy z h1)
    · rw [if_neg h]
      have hyx : y.1 < x.1 :=
        lt_of_le_of_ne (le_of_not_lt h) (hidx y (by simp))
      refine List.Pairwise.cons ?_ (ih hys (fun u hu => hidx u (List.mem_cons_of_mem y hu)))
      intro z hz
      rcases insertAscIdx_mem hz with h1 | h1
      · subst h1; exact hyx
      · exact hy z h1

theorem sortAscIdx_perm_aux : ∀ (l acc : List (ℕ × ℚ × List Char)),
    Perm (l.foldl (fun acc x => insertAscIdx x acc) acc) (l ++ acc) := by
  intro l
  induction l with
  | nil => intro acc; exact List.Perm.refl _
  | cons x l ih =>
    intro acc
    show Perm (l.foldl _ (insertAscIdx x acc)) _
    refine (ih (insertAscIdx x acc)).trans ?_
    refine ((insertAscIdx_perm x acc).append_left l).trans ?_
    exact List.perm_middle

theorem sortAscIdx_perm (l : List (ℕ × ℚ × List Char)) :
    Perm (sortAscIdx l) l := by
  have := sortAscIdx_perm_aux l []
  simpa using this

theorem sortAscIdx_pairwise_aux : ∀ (l acc : List (ℕ × ℚ × List Char)),
    l.Pairwise (fun a b => a.1 ≠ b.1) → acc.Pairwise (fun a b => a.1 < b.1) →
    (∀ y ∈ acc, ∀ x ∈ l, y.1 ≠ x.1) →
    (l.foldl (fun acc x => insertAscIdx x acc) acc).Pairwise (fun a b => a.1 < b.1) := by
  intro l
  induction l with
  | nil => intro acc _ h2 _; exact h2
  | cons x l ih =>
    intro acc h1 h2 h3
    rcases List.pairwise_cons.mp h1 with ⟨hx, hl⟩
    show (l.foldl _ (insertAscIdx x acc)).Pairwise _
    refine ih (insertAscIdx x acc) hl
      (insertAscIdx_pairwise h2 (fun y hy => h3 y hy x (by simp))) ?_
    intro y hy z hz
    rcases insertAscIdx_mem hy with h4 | h4
    · subst h4; exact hx z hz
    · exact h3 y h4 z (List.mem_cons_of_mem x hz)

theorem sortAscIdx_pairwise {l : List (ℕ × ℚ × List Char)}
    (h : l.Pairwise (fun a b => a.1 ≠ b.1)) :
    (sortAscIdx l).Pairwise (fun a b => a.1 < b.1) :=
  sortAscIdx_pairwise_aux l [] h List.Pairwise.nil (fun y hy => by simp at hy)

/-! ## The selection is a sublist of the sentence list -/

theorem map_select_sublist : ∀ (l : List (ℕ × ℚ × List Char))
    (sents : List (List Char)) (n : ℕ),
    l.Pairwise (fun a b => a.1 < b.1) →
    (∀ x ∈ l, n ≤ x.1 ∧ sents[x.1 - n]? = some x.2.2) →
    Sublist (l.map (fun x => x.2.2)) sents := by
  intro l
  induction l with
  | nil => intro sents n _ _; exact List.nil_sublist sents
  | cons x l ih =>
    intro sents n hpw hget
    rcases List.pairwise_cons.mp hpw with ⟨hx, hl⟩
    obtain ⟨hn, hsome⟩ := hget x (by simp)
    obtain ⟨hlt, hval⟩ := List.getElem?_eq_some_iff.mp hsome
    have hrest : Sublist (l.map (fun x => x.2.2)) (sents.drop (x.1 - n + 1)) := by
      refine ih (sents.drop (x.1 - n + 1)) (x.1 + 1) hl ?_
      intro z hz
      obtain ⟨hn2, hsome2⟩ := hget z (List.mem_cons_of_mem x hz)
      have hxz := hx z hz
      refine ⟨by omega, ?_⟩
      rw [List.getElem?_drop]
      have : x.1 - n + 1 + (z.1 - (x.1 + 1)) = z.1 - n := by omega
      rw [this]
      exact hsome2
    have hsents : sents = sents.take (x.1 - n) ++ (x.2.2 :: sents.drop (x.1 - n + 1)) := by
      conv_lhs => rw [← List.take_append_drop (x.1 - n) sents]
      congr 1
      rw [← List.getElem_cons_drop sents (x.1 - n) hlt, hval]
    rw [show (x :: l).map (fun x => x.2.2) = x.2.2 :: l.map (fun x => x.2.2) from rfl,
      hsents]
    exact Sublist.trans (Sublist.cons₂ x.2.2 hrest)
      (List.sublist_append_right _ _)

/-! ## Facts about the scored-sentence list -/

theorem scoredSentences_pairwise (ws : List (List Char)) (mf : ℕ)
    (sents : List (List Char)) :
    (scoredSentences ws mf sents).Pairwise (fun a b => a.1 < b.1) := by
  unfold scoredSentences
  rw [List.pairwise_map]
  exact (pyEnum_pairwise_lt sents 0).filter _

theorem scoredSentences_mem {ws : List (List Char)} {mf : ℕ}
    {sents : List (List Char)} {x : ℕ × ℚ × List Char}
    (h : x ∈ scoredSentences ws mf sents) :
    sents[x.1]? = some x.2.2 := by
  unfold scoredSentences at h
  obtain ⟨p, hp, hpx⟩ := List.mem_map.mp h
  have hpe := (List.mem_filter.mp hp).1
  obtain ⟨_, hget⟩ := pyEnum_mem_getElem sents 0 p hpe
  rw [Nat.sub_zero] at hget
  rw [← hpx]
  exact hget

theorem scoredSentences_ne_nil {ws : List (List Char)} {mf : ℕ}
    {sents : List (List Char)} {s : List Char} (hs : s ∈ sents)
    (ht : tokenize_words s ≠ []) : scoredSentences ws mf sents ≠ [] := by
  obtain ⟨i, hi⟩ := pyEnum_mem_of_mem sents 0 s hs
  have hfil : (i, s) ∈ (pyEnum 0 sents).filter (fun p => !(tokenize_words p.2).isEmpty) := by
    rw [List.mem_filter]
    refine ⟨hi, ?_⟩
    simp only [Bool.not_eq_true']
    cases h0 : (tokenize_words s).isEmpty with
    | false => rfl
    | true => exact absurd (List.isEmpty_iff.mp h0) ht
  unfold scoredSentences
  exact List.ne_nil_of_mem (List.mem_map.mpr ⟨(i, s), hfil, rfl⟩)

/-! ## The selection pipeline as a function of the input text -/

/-- The `top_sorted` list of render_app.py:167-168 computed from the input
text: scored sentences sorted descending by score key (stable), truncated
to `m`, re-sorted ascending by original index, texts extracted. -/
def topSortedOf (text : List Char) (m : ℕ) : List (List Char) :=
  (sortAscIdx ((sortDesc (scoredSentences (keptWordsOf text)
    (maxFreq (keptWordsOf text)) (cappedSentences text))).take m)).map
    (fun x => x.2.2)

/-! ## Path equations for `summarizeCore` -/

theorem summarizeCore_empty {text : List Char} (h : split_sentences text = [])
    (m : ℕ) : summarizeCore text m = some [] := by
  unfold summarizeCore
  rw [if_pos (List.isEmpty_iff.mpr h)]

theorem summarizeCore_noWords {text : List Char} (h : split_sentences text ≠ [])
    (hw : keptWordsOf text = []) (m : ℕ) :
    summarizeCore text m = some (joinSpace ((cappedSentences text).take m)) := by
  unfold summarizeCore
  rw [if_neg (fun h0 => h (List.isEmpty_iff.mp h0)),
    if_pos (List.isEmpty_iff.mpr hw)]

theorem summarizeCore_main {text : List Char} (h : split_sentences text ≠ [])
    (hw : keptWordsOf text ≠ []) (m : ℕ) :
    summarizeCore text m = some (pyStrip (collapseWs
      (if (pyStrip (clean_summary (joinSpace (topSortedOf text m)))).isEmpty
       then joinSpace ((cappedSentences text).take m)
       else pyStrip (clean_summary (joinSpace (topSortedOf text m)))))) := by
  unfold summarizeCore
  rw [if_neg (fun h0 => h (List.isEmpty_iff.mp h0)),
    if_neg (fun h0 => hw (List.isEmpty_iff.mp h0)),
    pyMaxNat_of_ne_nil hw]
  rfl

/-! ## Joinability and nonemptiness of the selection -/

theorem Joinable_capped (text : List Char) : Joinable (cappedSentences text) :=
  Joinable_sublist (List.take_sublist 80 (split_sentences text))
    Joinable_split_sentences

theorem topSortedOf_sublist (text : List Char) (m : ℕ) :
    Sublist (topSortedOf text m) (cappedSentences text) := by
  unfold topSortedOf
  set ws := keptWordsOf text
  set ss := scoredSentences ws (maxFreq ws) (cappedSentences text) with hss
  have hpw : ss.Pairwise (fun a b => a.1 < b.1) := scoredSentences_pairwise _ _ _
  have hsorted : (sortDesc ss).Pairwise (fun a b => a.1 ≠ b.1) :=
    (List.Perm.pairwise_iff (fun h => Ne.symm h) (sortDesc_perm ss)).mpr
      (hpw.imp Nat.ne_of_lt)
  have htake : ((sortDesc ss).take m).Pairwise (fun a b => a.1 ≠ b.1) :=
    hsorted.sublist (List.take_sublist m (sortDesc ss))
  apply map_select_sublist _ _ 0 (sortAscIdx_pairwise htake)
  intro x hx
  have hx2 : x ∈ (sortDesc ss).take m := (sortAscIdx_perm _).mem_iff.mp hx
  have hx3 : x ∈ sortDesc ss := List.Sublist.mem hx2 (List.take_sublist m _)
  have hx4 : x ∈ ss := (sortDesc_perm ss).mem_iff.mp hx3
  refine ⟨Nat.zero_le _, ?_⟩
  rw [Nat.sub_zero]
  exact scoredSentences_mem hx4

theorem topSortedOf_joinable (text : List Char) (m : ℕ) :
    Joinable (topSortedOf text m) :=
  Joinable_sublist (topSortedOf_sublist text m) (Joinable_capped text)

theorem topSortedOf_ne_nil {text : List Char} (hw : keptWordsOf text ≠ [])
    {m : ℕ} (hm : 1 ≤ m) : topSortedOf text m ≠ [] := by
  obtain ⟨s, hs, ht⟩ := keptWordsOf_ne_nil_exists hw
  have hss : scoredSentences (keptWordsOf text) (maxFreq (keptWordsOf text))
      (cappedSentences text) ≠ [] := scoredSentences_ne_nil hs ht
  intro h0
  unfold topSortedOf at h0
  rw [List.map_eq_nil_iff] at h0
  have h7 := (sortAscIdx_perm ((sortDesc (scoredSentences (keptWordsOf text)
    (maxFreq (keptWordsOf text)) (cappedSentences text))).take m)).length_eq
  rw [h0] at h7
  rw [List.length_take] at h7
  have h3 := (sortDesc_perm (scoredSentences (keptWordsOf text)
    (maxFreq (keptWordsOf text)) (cappedSentences text))).length_eq
  have h5 : 0 < (scoredSentences (keptWordsOf text) (maxFreq (keptWordsOf text))
      (cappedSentences text)).length := List.length_pos.mpr hss
  simp at h7
  omega

/-! ## Joins of stripped nonempty strings -/

theorem joinSpace_head_not2 {t : List Char} {r : List (List Char)}
    (ht : pyStrip t = t) (htne : t ≠ []) :
    ∀ d, (joinSpace (t :: r)).head? = some d → pySpace d = false := by
  intro d hd
  cases r with
  | nil => exact stripped_head_not ht hd
  | cons u r' =>
    rw [show joinSpace (t :: u :: r') = t ++ ' ' :: joinSpace (u :: r') from rfl,
      head?_append_left htne] at hd
    exact stripped_head_not ht hd

theorem joinSpace_getLast_not2 {l : List (List Char)}
    (h : ∀ s ∈ l, pyStrip s = s ∧ s ≠ []) :
    ∀ c, (joinSpace l).getLast? = some c → pySpace c = false := by
  induction l with
  | nil => intro c hc; simp [joinSpace] at hc
  | cons s r ih =>
    intro c hc
    cases r with
    | nil => exact stripped_getLast_not (h s (by simp)).1 hc
    | cons t r' =>
      rw [show joinSpace (s :: t :: r') = s ++ ' ' :: joinSpace (t :: r') from rfl,
        getLast?_append_right (by simp),
        show (' ' :: joinSpace (t :: r') : List Char) = [' '] ++ joinSpace (t :: r') from rfl,
        getLast?_append_right] at hc
      · exact ih (fun u hu => h u (List.mem_cons_of_mem s hu)) c hc
      · exact joinSpace_ne_nil (by simp)
          (fun u hu => (h u (List.mem_cons_of_mem s hu)).2)

theorem pyStrip_joinSpace2 {l : List (List Char)}
    (h : ∀ s ∈ l, pyStrip s = s ∧ s ≠ []) :
    pyStrip (joinSpace l) = joinSpace l := by
  cases l with
  | nil => rfl
  | cons s r =>
    exact stripped_of_edges (joinSpace_head_not2 (h s (by simp)).1 (h s (by simp)).2)
      (joinSpace_getLast_not2 h)

theorem collapsed_stripped_ne {l : List (List Char)}
    (h : ∀ s ∈ l, pyStrip s = s ∧ s ≠ []) :
    ∀ s ∈ l.map collapseWs, pyStrip s = s ∧ s ≠ [] := by
  intro s hs
  obtain ⟨u, hu, hus⟩ := List.mem_map.mp hs
  obtain ⟨h1, h2⟩ := h u hu
  exact ⟨by rw [← hus]; exact collapseWs_stripped h1,
    by rw [← hus]; exact collapseWs_ne_nil h2 h1⟩

theorem take_ne_nil_of {α : Type} {l : List α} {m : ℕ} (hm : 1 ≤ m)
    (hl : l ≠ []) : l.take m ≠ [] := by
  intro h0
  rcases List.take_eq_nil_iff.mp h0 with h | h
  · omega
  · exact hl h

theorem capped_ne_nil {text : List Char} (h : split_sentences text ≠ []) :
    cappedSentences text ≠ [] :=
  take_ne_nil_of (by omega) h

/-! ## Common shapes of the main path -/

/-- In the main scoring path, when the boilerplate filter keeps at least
one selected sentence, the returned summary is the space-join of the kept
sentences with their internal whitespace runs collapsed. -/
theorem summarize_main_kept {text : List Char} {m : ℕ}
    (h : split_sentences text ≠ []) (hw : keptWordsOf text ≠ [])
    (hk : (topSortedOf text m).filter (fun s => !isBoiler s) ≠ []) :
    summarize_text text m =
      joinSpace (((topSortedOf text m).filter (fun s => !isBoiler s)).map collapseWs) := by
  have hj : Joinable (topSortedOf text m) := topSortedOf_joinable text m
  have hjk : Joinable ((topSortedOf text m).filter (fun s => !isBoiler s)) :=
    Joinable_sublist (List.filter_sublist _) hj
  have hclean : clean_summary (joinSpace (topSortedOf text m)) =
      joinSpace ((topSortedOf text m).filter (fun s => !isBoiler s)) :=
    clean_summary_joinSpace hj
  have hkeptlike : ∀ s ∈ (topSortedOf text m).filter (fun s => !isBoiler s),
      pyStrip s = s ∧ s ≠ [] :=
    fun s hs => ⟨(hjk.1 s hs).1, (hjk.1 s hs).ne_nil⟩
  have hstrip : pyStrip (clean_summary (joinSpace (topSortedOf text m))) =
      joinSpace ((topSortedOf text m).filter (fun s => !isBoiler s)) := by
    rw [hclean]
    exact pyStrip_joinSpace2 hkeptlike
  have hjoinne : joinSpace ((topSortedOf text m).filter (fun s => !isBoiler s)) ≠ [] :=
    joinSpace_ne_nil hk (fun s hs => (hkeptlike s hs).2)
  unfold summarize_text
  rw [summarizeCore_main h hw m, hstrip,
    if_neg (fun h0 => hjoinne (List.isEmpty_iff.mp h0))]
  show pyStrip (collapseWs (joinSpace ((topSortedOf text m).filter
    (fun s => !isBoiler s)))) = _
  rw [collapseWs_joinSpace (fun s hs => hjk.1 s hs)]
  exact pyStrip_joinSpace2 (collapsed_stripped_ne hkeptlike)

/-- In the main scoring path, when the boilerplate filter removes every
selected sentence, the fallback joins the first `m` capped sentences and
the final tidy collapses their internal whitespace. -/
theorem summarize_main_fallback {text : List Char} {m : ℕ}
    (h : split_sentences text ≠ []) (hw : keptWordsOf text ≠ [])
    (hk : (topSortedOf text m).filter (fun s => !isBoiler s) = []) :
    summarize_text text m =
      joinSpace (((cappedSentences text).take m).map collapseWs) := by
  have hj : Joinable (topSortedOf text m) := topSortedOf_joinable text m
  have hclean : clean_summary (joinSpace (topSortedOf text m)) = [] := by
    rw [clean_summary_joinSpace hj, hk]
    rfl
  have hjt : Joinable ((cappedSentences text).take m) :=
    Joinable_sublist (List.take_sublist m _) (Joinable_capped text)
  have htlike : ∀ s ∈ (cappedSentences text).take m, pyStrip s = s ∧ s ≠ [] :=
    fun s hs => ⟨(hjt.1 s hs).1, (hjt.1 s hs).ne_nil⟩
  unfold summarize_text
  rw [summarizeCore_main h hw m, hclean]
  rw [show pyStrip ([] : List Char) = [] from rfl,
    if_pos (show ([] : List Char).isEmpty = true from rfl)]
  show pyStrip (collapseWs (joinSpace ((cappedSentences text).take m))) = _
  rw [collapseWs_joinSpace (fun s hs => hjt.1 s hs)]
  exact pyStrip_joinSpace2 (collapsed_stripped_ne htlike)

/-! ## Claim theorems -/

/-- C5: for every input text whose segmentation yields zero qualifying
sentences (every fragment has fewer than 5 whitespace-delimited words),
`summarize_text` returns the empty string, for every `max_sentences`
(render_app.py:138-140). -/
theorem C5_empty_segmentation (text : List Char)
    (h : split_sentences text = []) :
    ∀ max_sentences : ℕ, summarize_text text max_sentences = [] := by
  intro m
  unfold summarize_text
  rw [summarizeCore_empty h]
  rfl

/-- C5 witness: "Hi there. Bye." has only fragments of fewer than five
words, and the summary is empty. -/
theorem C5_empty_segmentation_witness :
    split_sentences ("Hi there. Bye.".toList) = [] ∧
      summarize_text ("Hi there. Bye.".toList) 5 = [] :=
  ⟨by decide, C5_empty_segmentation _ (by decide) 5⟩

/-- C6: the body inside the `try` of `summarize_text` is total — for every
string input and every `max_sentences` the core produces a string and never
propagates an exception (`none`); the only partial primitive, `max()` on an
empty sequence (render_app.py:152), is reached only with a nonempty word
list.  The `except` handler converts a propagated fault to the empty
string, so `summarize_text` always returns. -/
theorem C6_total (text : List Char) (max_sentences : ℕ) :
    (∃ r, summarizeCore text max_sentences = some r) ∧
      summarize_text text max_sentences =
        (summarizeCore text max_sentences).getD [] := by
  refine ⟨?_, rfl⟩
  by_cases h : split_sentences text = []
  · exact ⟨[], summarizeCore_empty h max_sentences⟩
  · by_cases hw : keptWordsOf text = []
    · exact ⟨_, summarizeCore_noWords h hw max_sentences⟩
    · exact ⟨_, summarizeCore_main h hw max_sentences⟩

/-- C9: `summarize_text` is deterministic — two runs on equal inputs return
identical strings (the embedding is a pure function; the Python body reads
only immutable module state and mutates only call-local data). -/
theorem C9_deterministic (t₁ t₂ : List Char) (m₁ m₂ : ℕ)
    (ht : t₁ = t₂) (hm : m₁ = m₂) :
    summarize_text t₁ m₁ = summarize_text t₂ m₂ := by
  subst ht; subst hm; rfl

/-- C9 witness: determinism at a concrete input. -/
theorem C9_deterministic_witness :
    summarize_text ("Dogs bark loudly every day.".toList) 5 =
      summarize_text ("Dogs bark loudly every day.".toList) 5 :=
  C9_deterministic _ _ 5 5 rfl rfl

/-- C10: calling `summarize_text` with `max_sentences = 0` returns the
empty string on every input, including texts with qualifying sentences:
every path joins the first 0 sentences (render_app.py:149,167,175). -/
theorem C10_zero_sentences (text : List Char) : summarize_text text 0 = [] := by
  by_cases h : split_sentences text = []
  · unfold summarize_text
    rw [summarizeCore_empty h]
    rfl
  · by_cases hw : keptWordsOf text = []
    · unfold summarize_text
      rw [summarizeCore_noWords h hw]
      rfl
    · unfold summarize_text
      rw [summarizeCore_main h hw]
      rfl

/-- C7: sentences beyond the first 80 of the filtered segmentation are
excluded from scoring and from summary candidacy on every path — the
result depends on the segmentation only through its first 80 sentences
(render_app.py:142-143). -/
theorem C7_cap_invariance (t₁ t₂ : List Char)
    (h : (split_sentences t₁).take 80 = (split_sentences t₂).take 80) :
    ∀ max_sentences : ℕ,
      summarize_text t₁ max_sentences = summarize_text t₂ max_sentences := by
  intro m
  have hcap : cappedSentences t₁ = cappedSentences t₂ := h
  have hkw : keptWordsOf t₁ = keptWordsOf t₂ := by
    unfold keptWordsOf
    rw [hcap]
  have hemp : split_sentences t₁ = [] ↔ split_sentences t₂ = [] := by
    constructor
    · intro h1
      have : cappedSentences t₂ = [] := by rw [← hcap]; unfold cappedSentences; rw [h1]; rfl
      rcases List.take_eq_nil_iff.mp this with h2 | h2
      · omega
      · exact h2
    · intro h1
      have : cappedSentences t₁ = [] := by rw [hcap]; unfold cappedSentences; rw [h1]; rfl
      rcases List.take_eq_nil_iff.mp this with h2 | h2
      · omega
      · exact h2
  by_cases h1 : split_sentences t₁ = []
  · unfold summarize_text
    rw [summarizeCore_empty h1, summarizeCore_empty (hemp.mp h1)]
  · have h2 : split_sentences t₂ ≠ [] := fun h0 => h1 (hemp.mpr h0)
    by_cases hw1 : keptWordsOf t₁ = []
    · unfold summarize_text
      rw [summarizeCore_noWords h1 hw1, summarizeCore_noWords h2 (hkw ▸ hw1), hcap]
    · have hw2 : keptWordsOf t₂ ≠ [] := fun h0 => hw1 (by rw [hkw]; exact h0)
      have htop : topSortedOf t₁ m = topSortedOf t₂ m := by
        unfold topSortedOf
        rw [hcap, hkw]
      unfold summarize_text
      rw [summarizeCore_main h1 hw1, summarizeCore_main h2 hw2, htop, hcap]

/-- C7 witness: two texts of 82 and 81 identical sentences agree on their
first 80 segmented sentences, and their summaries coincide. -/
theorem C7_cap_invariance_witness :
    (split_sentences (joinSpace (List.replicate 82 ("a b c d e.".toList)))).take 80 =
      (split_sentences (joinSpace (List.replicate 81 ("a b c d e.".toList)))).take 80 ∧
    summarize_text (joinSpace (List.replicate 82 ("a b c d e.".toList))) 3 =
      summarize_text (joinSpace (List.replicate 81 ("a b c d e.".toList))) 3 :=
  ⟨by decide, C7_cap_invariance _ _ (by decide) 3⟩

/-- C8: whenever at least one non-stopword token survives, the frequency
table maps every retained token to its raw count divided by the maximum
raw count, every score lies in (0,1], and some token scores exactly 1
(render_app.py:151-155). -/
theorem C8_freq_normalized (text : List Char)
    (hw : keptWordsOf text ≠ []) :
    (∀ t ∈ keptWordsOf text,
      nfreq (keptWordsOf text) (maxFreq (keptWordsOf text)) t =
        ((keptWordsOf text).count t : ℚ) / ((maxFreq (keptWordsOf text) : ℕ) : ℚ) ∧
      0 < nfreq (keptWordsOf text) (maxFreq (keptWordsOf text)) t ∧
      nfreq (keptWordsOf text) (maxFreq (keptWordsOf text)) t ≤ 1) ∧
    ∃ t ∈ keptWordsOf text,
      nfreq (keptWordsOf text) (maxFreq (keptWordsOf text)) t = 1 := by
  have hmf : 1 ≤ maxFreq (keptWordsOf text) := one_le_maxFreq hw
  have hmfQ : (0 : ℚ) < ((maxFreq (keptWordsOf text) : ℕ) : ℚ) := by
    exact_mod_cast Nat.lt_of_lt_of_le Nat.zero_lt_one hmf
  constructor
  · intro t ht
    refine ⟨rfl, ?_, ?_⟩
    · apply div_pos _ hmfQ
      have : 1 ≤ (keptWordsOf text).count t := List.count_pos_iff.mpr ht
      exact_mod_cast Nat.lt_of_lt_of_le Nat.zero_lt_one this
    · show ((keptWordsOf text).count t : ℚ) /
        ((maxFreq (keptWordsOf text) : ℕ) : ℚ) ≤ 1
      rw [div_le_one hmfQ]
      exact_mod_cast count_le_maxFreq ht
  · obtain ⟨w, hwmem, hwc⟩ := maxFreq_attained hw
    refine ⟨w, hwmem, ?_⟩
    show ((keptWordsOf text).count w : ℚ) / _ = 1
    rw [hwc]
    exact div_self (ne_of_gt hmfQ)

/-- C8 witness: a concrete text with surviving tokens; "dogs" occurs twice
and scores 1, "bark" occurs once and scores 1/2. -/
theorem C8_freq_normalized_witness :
    keptWordsOf ("Dogs bark and dogs play loudly.".toList) ≠ [] ∧
    (0 < nfreq (keptWordsOf ("Dogs bark and dogs play loudly.".toList))
        (maxFreq (keptWordsOf ("Dogs bark and dogs play loudly.".toList)))
        ("bark".toList) ∧
      nfreq (keptWordsOf ("Dogs bark and dogs play loudly.".toList))
        (maxFreq (keptWordsOf ("Dogs bark and dogs play loudly.".toList)))
        ("bark".toList) ≤ 1) ∧
    ∃ t ∈ keptWordsOf ("Dogs bark and dogs play loudly.".toList),
      nfreq (keptWordsOf ("Dogs bark and dogs play loudly.".toList))
        (maxFreq (keptWordsOf ("Dogs bark and dogs play loudly.".toList))) t = 1 :=
  ⟨by decide,
    ⟨((C8_freq_normalized _ (by decide)).1 ("bark".toList) (by decide)).2.1,
      ((C8_freq_normalized _ (by decide)).1 ("bark".toList) (by decide)).2.2⟩,
    (C8_freq_normalized _ (by decide)).2⟩

/-- C3: the selection of render_app.py:167-168 — the stable descending
sort is a permutation of the scored sentences ordered by score descending
with ties broken in favour of the earlier (lower-index) sentence (`Rdesc`),
the selected entries are its first `max_sentences`, and the emitted
sentence list is a sublist of the capped segmentation (hence of the full
segmentation): any two sentences in the output keep their original
relative order. -/
theorem C3_selection (text : List Char) (max_sentences : ℕ)
    (hm : 1 ≤ max_sentences) :
    Perm (sortDesc (scoredSentences (keptWordsOf text)
        (maxFreq (keptWordsOf text)) (cappedSentences text)))
      (scoredSentences (keptWordsOf text)
        (maxFreq (keptWordsOf text)) (cappedSentences text)) ∧
    (sortDesc (scoredSentences (keptWordsOf text)
        (maxFreq (keptWordsOf text)) (cappedSentences text))).Pairwise Rdesc ∧
    topSortedOf text max_sentences =
      (sortAscIdx ((sortDesc (scoredSentences (keptWordsOf text)
        (maxFreq (keptWordsOf text)) (cappedSentences text))).take max_sentences)).map
        (fun x => x.2.2) ∧
    Sublist (topSortedOf text max_sentences) (cappedSentences text) ∧
    Sublist (topSortedOf text max_sentences) (split_sentences text) :=
  ⟨sortDesc_perm _,
    sortDesc_pairwise (scoredSentences_pairwise _ _ _),
    rfl,
    topSortedOf_sublist text max_sentences,
    Sublist.trans (topSortedOf_sublist text max_sentences)
      (List.take_sublist 80 _)⟩

/-- C3 witness: the selection properties at a concrete two-sentence text. -/
theorem C3_selection_witness :
    (1 ≤ 2) ∧
    (Perm (sortDesc (scoredSentences
        (keptWordsOf ("Dogs bark loudly every day. Cats purr softly all night.".toList))
        (maxFreq (keptWordsOf ("Dogs bark loudly every day. Cats purr softly all night.".toList)))
        (cappedSentences ("Dogs bark loudly every day. Cats purr softly all night.".toList))))
      (scoredSentences
        (keptWordsOf ("Dogs bark loudly every day. Cats purr softly all night.".toList))
        (maxFreq (keptWordsOf ("Dogs bark loudly every day. Cats purr softly all night.".toList)))
        (cappedSentences ("Dogs bark loudly every day. Cats purr softly all night.".toList))) ∧
    (sortDesc (scoredSentences
        (keptWordsOf ("Dogs bark loudly every day. Cats purr softly all night.".toList))
        (maxFreq (keptWordsOf ("Dogs bark loudly every day. Cats purr softly all night.".toList)))
        (cappedSentences ("Dogs bark loudly every day. Cats purr softly all night.".toList)))).Pairwise Rdesc ∧
    topSortedOf ("Dogs bark loudly every day. Cats purr softly all night.".toList) 2 =
      (sortAscIdx ((sortDesc (scoredSentences
        (keptWordsOf ("Dogs bark loudly every day. Cats purr softly all night.".toList))
        (maxFreq (keptWordsOf ("Dogs bark loudly every day. Cats purr softly all night.".toList)))
        (cappedSentences ("Dogs bark loudly every day. Cats purr softly all night.".toList)))).take 2)).map
        (fun x => x.2.2) ∧
    Sublist (topSortedOf ("Dogs bark loudly every day. Cats purr softly all night.".toList) 2)
      (cappedSentences ("Dogs bark loudly every day. Cats purr softly all night.".toList)) ∧
    Sublist (topSortedOf ("Dogs bark loudly every day. Cats purr softly all night.".toList) 2)
      (split_sentences ("Dogs bark loudly every day. Cats purr softly all night.".toList))) :=
  ⟨by decide, C3_selection _ 2 (by decide)⟩

/-- C4 counterexample: on "the of  to in on and" (an internal run of two
spaces; every token is a stopword) the no-token early return
(render_app.py:149) bypasses the final whitespace collapse of
render_app.py:178, and the returned string retains the double space —
refuting the claim that the output never contains a whitespace run. -/
theorem C4_counterexample :
    noDoubleWs (summarize_text ("the of  to in on and".toList) 5) = false := by
  decide

/-- C4 amended: the returned string never has leading or trailing
whitespace; and on every path except the no-token early return
(render_app.py:149) — i.e. whenever at least one non-stopword token
remains — it contains no run of two or more whitespace characters. -/
theorem C4_amended (text : List Char) (m : ℕ) :
    pyStrip (summarize_text text m) = summarize_text text m ∧
    (keptWordsOf text ≠ [] → noDoubleWs (summarize_text text m) = true) := by
  by_cases h : split_sentences text = []
  · have hout : summarize_text text m = [] := by
      unfold summarize_text
      rw [summarizeCore_empty h]
      rfl
    rw [hout]
    exact ⟨rfl, fun _ => rfl⟩
  · by_cases hw : keptWordsOf text = []
    · have hout : summarize_text text m = joinSpace ((cappedSentences text).take m) := by
        unfold summarize_text
        rw [summarizeCore_noWords h hw]
        rfl
      have hjt : Joinable ((cappedSentences text).take m) :=
        Joinable_sublist (List.take_sublist m _) (Joinable_capped text)
      rw [hout]
      exact ⟨pyStrip_joinSpace2 (fun s hs => ⟨(hjt.1 s hs).1, (hjt.1 s hs).ne_nil⟩),
        fun hw2 => absurd hw hw2⟩
    · have hout : ∃ X, summarize_text text m = pyStrip (collapseWs X) := by
        unfold summarize_text
        rw [summarizeCore_main h hw m]
        exact ⟨_, rfl⟩
      obtain ⟨X, hX⟩ := hout
      rw [hX]
      exact ⟨pyStrip_idem _, fun _ => noDoubleWs_pyStrip (noDoubleWs_collapseWs X)⟩

/-- C4 amended witness: at a concrete scoring-path input the output is
stripped and has no whitespace runs. -/
theorem C4_amended_witness :
    pyStrip (summarize_text ("Dogs bark loudly every day.".toList) 5) =
      summarize_text ("Dogs bark loudly every day.".toList) 5 ∧
    keptWordsOf ("Dogs bark loudly every day.".toList) ≠ [] ∧
    noDoubleWs (summarize_text ("Dogs bark loudly every day.".toList) 5) = true :=
  ⟨(C4_amended _ 5).1, by decide, (C4_amended _ 5).2 (by decide)⟩

/-- C2 counterexample: on "Dogs  bark loudly every day." (double internal
space) the final `re.sub` of render_app.py:178 rewrites the single
qualifying sentence, so the returned string is not a space-join of whole
sentences of the segmentation — refuting the as-stated claim even in its
weakest reading (any selection of segmentation sentences, in any order). -/
theorem C2_counterexample :
    (split_sentences ("Dogs  bark loudly every day.".toList) ≠ [] ∧ (1 : ℕ) ≤ 5) ∧
    ¬ (∃ l, (∀ s ∈ l, s ∈ split_sentences ("Dogs  bark loudly every day.".toList)) ∧
        l ≠ [] ∧
        summarize_text ("Dogs  bark loudly every day.".toList) 5 = joinSpace l) := by
  refine ⟨⟨by decide, by decide⟩, ?_⟩
  rintro ⟨l, hmem, hne, heq⟩
  have hsplit : split_sentences ("Dogs  bark loudly every day.".toList) =
      ["Dogs  bark loudly every day.".toList] := by decide
  have hout : summarize_text ("Dogs  bark loudly every day.".toList) 5 =
      "Dogs bark loudly every day.".toList := by decide
  cases l with
  | nil => exact hne rfl
  | cons s0 rest =>
    have hs0 : s0 = "Dogs  bark loudly every day.".toList := by
      have := hmem s0 (by simp)
      rw [hsplit] at this
      simpa using this
    subst hs0
    cases rest with
    | nil =>
      rw [hout] at heq
      exact absurd heq (by decide)
    | cons t r =>
      rw [hout] at heq
      have heq6 : (("Dogs bark loudly every day.".toList).take 6 : List Char) =
          (joinSpace ("Dogs  bark loudly every day.".toList :: t :: r)).take 6 := by
        rw [heq]
      rw [show joinSpace ("Dogs  bark loudly every day.".toList :: t :: r) =
        "Dogs  bark loudly every day.".toList ++ ' ' :: joinSpace (t :: r) from rfl,
        List.take_append_of_le_length (by decide)] at heq6
      exact absurd heq6 (by decide)

/-- C2 amended: for text with at least one qualifying sentence and
`max_sentences ≥ 1`, the result is non-empty and is the space-join of a
non-empty subsequence of the segmentation's sentences — verbatim on the
no-token early return of render_app.py:149, and otherwise with each
sentence's internal whitespace runs collapsed to single spaces by
render_app.py:178. -/
theorem C2_amended (text : List Char) (m : ℕ)
    (h : split_sentences text ≠ []) (hm : 1 ≤ m) :
    summarize_text text m ≠ [] ∧
    ∃ l, Sublist l (split_sentences text) ∧ l ≠ [] ∧
      (summarize_text text m = joinSpace l ∨
        summarize_text text m = joinSpace (l.map collapseWs)) := by
  by_cases hw : keptWordsOf text = []
  · have hout : summarize_text text m = joinSpace ((cappedSentences text).take m) := by
      unfold summarize_text
      rw [summarizeCore_noWords h hw]
      rfl
    have hjt : Joinable ((cappedSentences text).take m) :=
      Joinable_sublist (List.take_sublist m _) (Joinable_capped text)
    have hlne : (cappedSentences text).take m ≠ [] :=
      take_ne_nil_of hm (capped_ne_nil h)
    refine ⟨?_, (cappedSentences text).take m,
      Sublist.trans (List.take_sublist m _) (List.take_sublist 80 _), hlne,
      Or.inl hout⟩
    rw [hout]
    exact joinSpace_ne_nil hlne (fun s hs => (hjt.1 s hs).ne_nil)
  · by_cases hk : (topSortedOf text m).filter (fun s => !isBoiler s) = []
    · have hout := summarize_main_fallback h hw hk
      have hjt : Joinable ((cappedSentences text).take m) :=
        Joinable_sublist (List.take_sublist m _) (Joinable_capped text)
      have hlne : (cappedSentences text).take m ≠ [] :=
        take_ne_nil_of hm (capped_ne_nil h)
      refine ⟨?_, (cappedSentences text).take m,
        Sublist.trans (List.take_sublist m _) (List.take_sublist 80 _), hlne,
        Or.inr hout⟩
      rw [hout]
      refine joinSpace_ne_nil ?_
        (fun s hs => (collapsed_stripped_ne
          (fun u hu => ⟨(hjt.1 u hu).1, (hjt.1 u hu).ne_nil⟩) s hs).2)
      intro h0
      exact hlne (List.map_eq_nil_iff.mp h0)
    · have hout := summarize_main_kept h hw hk
      have hjk : Joinable ((topSortedOf text m).filter (fun s => !isBoiler s)) :=
        Joinable_sublist (List.filter_sublist _) (topSortedOf_joinable text m)
      refine ⟨?_, (topSortedOf text m).filter (fun s => !isBoiler s),
        Sublist.trans (List.filter_sublist _)
          (Sublist.trans (topSortedOf_sublist text m) (List.take_sublist 80 _)),
        hk, Or.inr hout⟩
      rw [hout]
      refine joinSpace_ne_nil ?_
        (fun s hs => (collapsed_stripped_ne
          (fun u hu => ⟨(hjk.1 u hu).1, (hjk.1 u hu).ne_nil⟩) s hs).2)
      intro h0
      exact hk (List.map_eq_nil_iff.mp h0)

/-- C2 amended witness: at a concrete one-sentence input the summary is
non-empty and is the (collapsed) join of segmentation sentences. -/
theorem C2_amended_witness :
    (split_sentences ("Dogs bark loudly every day.".toList) ≠ [] ∧ (1 : ℕ) ≤ 2) ∧
    (summarize_text ("Dogs bark loudly every day.".toList) 2 ≠ [] ∧
    ∃ l, Sublist l (split_sentences ("Dogs bark loudly every day.".toList)) ∧ l ≠ [] ∧
      (summarize_text ("Dogs bark loudly every day.".toList) 2 = joinSpace l ∨
        summarize_text ("Dogs bark loudly every day.".toList) 2 =
          joinSpace (l.map collapseWs))) :=
  ⟨⟨by decide, by decide⟩, C2_amended _ 2 (by decide) (by decide)⟩

/-- C1 counterexample: in "Cats cats cats cats enjoy Subscribe to our
newsletter. Dogs bark loudly every single day." the boilerplate sentence
outscores the other qualifying non-boilerplate sentence, so with
`max_sentences = 1` the filter empties the selection and the fallback of
render_app.py:174-175 reinstates the first sentence verbatim: the returned
string contains "Subscribe to our newsletter" although another qualifying
non-boilerplate sentence exists — refuting the claim as stated. -/
theorem C1_counterexample :
    (∃ s ∈ split_sentences ("Cats cats cats cats enjoy Subscribe to our newsletter. Dogs bark loudly every single day.".toList),
      containsSub ("Subscribe to our newsletter".toList) s = true) ∧
    (∃ s ∈ split_sentences ("Cats cats cats cats enjoy Subscribe to our newsletter. Dogs bark loudly every single day.".toList),
      isBoiler s = false) ∧
    (1 : ℕ) ≤ 1 ∧
    containsSub ("Subscribe to our newsletter".toList)
      (summarize_text ("Cats cats cats cats enjoy Subscribe to our newsletter. Dogs bark loudly every single day.".toList) 1) = true ∧
    summarize_text ("Cats cats cats cats enjoy Subscribe to our newsletter. Dogs bark loudly every single day.".toList) 1 =
      "Cats cats cats cats enjoy Subscribe to our newsletter.".toList ∧
    "Cats cats cats cats enjoy Subscribe to our newsletter.".toList ∈
      split_sentences ("Cats cats cats cats enjoy Subscribe to our newsletter. Dogs bark loudly every single day.".toList) := by
  refine ⟨by decide, by decide, by decide, by with_unfolding_all decide,
    by with_unfolding_all decide, by decide⟩

/-- C1 amended: a sentence containing "Subscribe to our newsletter" is
never present in the output provided at least one of the selected (top
`max_sentences`) sentences is non-boilerplate; when every selected
sentence is boilerplate, the fallback of render_app.py:174-175 returns the
first `max_sentences` sentences verbatim and may reinstate it. -/
theorem C1_amended (text : List Char) (m : ℕ) (hm : 1 ≤ m)
    (hw : keptWordsOf text ≠ [])
    (hsel : ∃ s ∈ topSortedOf text m, isBoiler s = false) :
    containsSub ("Subscribe to our newsletter".toList)
      (summarize_text text m) = false := by
  have h : split_sentences text ≠ [] := split_ne_nil_of_keptWords hw
  obtain ⟨s0, hs0, hb0⟩ := hsel
  have hk : (topSortedOf text m).filter (fun s => !isBoiler s) ≠ [] := by
    apply List.ne_nil_of_mem (a := s0)
    rw [List.mem_filter]
    refine ⟨hs0, ?_⟩
    rw [hb0]
    rfl
  have hout := summarize_main_kept h hw hk
  rw [hout]
  by_contra hcon
  rw [Bool.not_eq_false] at hcon
  have hsub : containsSub ("Subscribe".toList)
      (joinSpace (((topSortedOf text m).filter (fun s => !isBoiler s)).map collapseWs)) = true :=
    containsSub_trans (by decide) hcon
  have hne : ("Subscribe".toList) ≠ [] := by decide
  have hns : ∀ c ∈ ("Subscribe".toList), pySpace c = false := by decide
  obtain ⟨u, hu, hcu⟩ := containsSub_joinSpace hne hns _ hsub
  obtain ⟨v, hv, hvu⟩ := List.mem_map.mp hu
  rw [← hvu] at hcu
  have hcv : containsSub ("Subscribe".toList) v = true :=
    containsSub_collapseWs hne hns hcu
  have hvb : isBoiler v = false := by
    have := (List.mem_filter.mp hv).2
    simpa using this
  have hlow : containsSub (("Subscribe".toList).map Char.toLower)
      (v.map Char.toLower) = true := containsSub_map Char.toLower hcv
  have hmark : containsSub (pyLower ("Subscribe".toList)) (pyLower v) = false := by
    unfold isBoiler at hvb
    rw [List.any_eq_false] at hvb
    have := hvb ("Subscribe".toList) (by decide)
    simpa using this
  rw [show pyLower ("Subscribe".toList) = ("Subscribe".toList).map Char.toLower from rfl,
    show pyLower v = v.map Char.toLower from rfl, hlow] at hmark
  exact absurd hmark (by decide)

/-- C1 amended witness: with a non-boilerplate selected sentence present,
the output of a concrete input is free of the marker phrase. -/
theorem C1_amended_witness :
    ((1 : ℕ) ≤ 2 ∧
      keptWordsOf ("Dogs bark loudly every day. Subscribe to our newsletter now please.".toList) ≠ [] ∧
      (∃ s ∈ topSortedOf ("Dogs bark loudly every day. Subscribe to our newsletter now please.".toList) 2,
        isBoiler s = false)) ∧
    containsSub ("Subscribe to our newsletter".toList)
      (summarize_text ("Dogs bark loudly every day. Subscribe to our newsletter now please.".toList) 2) = false :=
  ⟨⟨by decide, by decide, by with_unfolding_all decide⟩,
    C1_amended _ 2 (by decide) (by decide) (by with_unfolding_all decide)⟩

/-! ## Faithfulness of the rational score key

The code compares real scores `sum / len ** 0.8` (render_app.py:163); the
embedding compares the rational keys `sum^5 / len^4`.  The two orders (and
hence also ties) coincide, because x ↦ x^5 is strictly monotone on the
nonnegative reals and (len^(4/5))^5 = len^4. -/

theorem rpow_den_pow_five {m : ℕ} (hm : 0 < m) :
    ((m : ℝ) ^ ((4 : ℝ) / 5)) ^ (5 : ℕ) = (m : ℝ) ^ (4 : ℕ) := by
  have hm' : (0 : ℝ) ≤ (m : ℝ) := by positivity
  rw [← Real.rpow_natCast (m : ℝ) 4,
    ← Real.rpow_natCast ((m : ℝ) ^ ((4 : ℝ) / 5)) 5, ← Real.rpow_mul hm']
  congr 1
  norm_num

theorem score_pow_five {a : ℚ} {m : ℕ} (hm : 0 < m) :
    ((a : ℝ) / (m : ℝ) ^ ((4 : ℝ) / 5)) ^ (5 : ℕ) =
      (a : ℝ) ^ (5 : ℕ) / (m : ℝ) ^ (4 : ℕ) := by
  rw [div_pow, rpow_den_pow_five hm]

theorem scoreKey_lt_iff_real (a b : ℚ) (m n : ℕ) (ha : 0 ≤ a) (hb : 0 ≤ b)
    (hm : 0 < m) (hn : 0 < n) :
    (a ^ 5 / ((m : ℚ)) ^ 4 < b ^ 5 / ((n : ℚ)) ^ 4 ↔
      (a : ℝ) / (m : ℝ) ^ ((4 : ℝ) / 5) < (b : ℝ) / (n : ℝ) ^ ((4 : ℝ) / 5)) := by
  have hmp : (0 : ℝ) < (m : ℝ) ^ ((4 : ℝ) / 5) :=
    Real.rpow_pos_of_pos (by exact_mod_cast hm) _
  have hnp : (0 : ℝ) < (n : ℝ) ^ ((4 : ℝ) / 5) :=
    Real.rpow_pos_of_pos (by exact_mod_cast hn) _
  have hx : (0 : ℝ) ≤ (a : ℝ) / (m : ℝ) ^ ((4 : ℝ) / 5) :=
    div_nonneg (by exact_mod_cast ha) hmp.le
  have hy : (0 : ℝ) ≤ (b : ℝ) / (n : ℝ) ^ ((4 : ℝ) / 5) :=
    div_nonneg (by exact_mod_cast hb) hnp.le
  rw [show (a ^ 5 / ((m : ℚ)) ^ 4 < b ^ 5 / ((n : ℚ)) ^ 4) ↔
      (((a ^ 5 / ((m : ℚ)) ^ 4 : ℚ)) : ℝ) < ((b ^ 5 / ((n : ℚ)) ^ 4 : ℚ) : ℝ) from
    (Rat.cast_lt (K := ℝ)).symm]
  push_cast
  rw [← pow_lt_pow_iff_left₀ hx hy (by norm_num : (5 : ℕ) ≠ 0)]
  rw [score_pow_five hm, score_pow_five hn]

theorem scoreKey_eq_iff_real (a b : ℚ) (m n : ℕ) (ha : 0 ≤ a) (hb : 0 ≤ b)
    (hm : 0 < m) (hn : 0 < n) :
    (a ^ 5 / ((m : ℚ)) ^ 4 = b ^ 5 / ((n : ℚ)) ^ 4 ↔
      (a : ℝ) / (m : ℝ) ^ ((4 : ℝ) / 5) = (b : ℝ) / (n : ℝ) ^ ((4 : ℝ) / 5)) := by
  have h1 := scoreKey_lt_iff_real a b m n ha hb hm hn
  have h2 := scoreKey_lt_iff_real b a n m hb ha hn hm
  constructor
  · intro h
    by_contra hne
    rcases lt_or_gt_of_ne hne with hl | hl
    · have := h1.mpr hl
      rw [h] at this
      exact lt_irrefl _ this
    · have := h2.mpr hl
      rw [h] at this
      exact lt_irrefl _ this
  · intro h
    by_contra hne
    rcases lt_or_gt_of_ne hne with hl | hl
    · have := h1.mp hl
      rw [h] at this
      exact lt_irrefl _ this
    · have := h2.mp hl
      rw [h] at this
      exact lt_irrefl _ this
